import Mathlib

/-!
# MstatX: weighted-entropy statistic (`wentropy.cpp`) and the shared printer (`statistic.h`)

A shallow embedding of `WEntStat::calcSeqWeight`, `WEntStat::calculateStatistic` and
`Stat1D::printStatistic`, and of the data members of `TridStat` (`trident.h`).

Conventions of the embedding:

* The definitions are generic in the type `F` of the `float` values and in its
  operations.  At a field `F` (`ℚ`, `ℝ` with `Real.log`) the arithmetic is exact: this
  idealisation says which quantity the code computes, and rounding is not counted.
* At `F32` the operations are those of IEEE binary32 (round to nearest, ties to even,
  every operation rounded to its type), `Binary32.calculateStatistic` is the run in that
  arithmetic, and the library functions `logf` and `log` are parameters.
* C++ `int` counters and sizes are natural numbers; overflow of `n * k` is not modelled.
* `for (int i(0); i < n; ++i) body` is `forLoop n body`.
* `std::vector<float>` is `List F`; `v.push_back a` is `v ++ [a]`, `v[i]` is `v.getD i 0`
  and `v[i] = a` is `v.set i a` (every index used by the code is in range).
* `exit(0)` is the result `none`.
-/

namespace MstatX

/-- The loop `for (int i(0); i < n; ++i) body`, threading the state `s` through the
iterations `i = 0, 1, ..., n - 1`. -/
def forLoop {σ : Type} (n : Nat) (body : Nat → σ → σ) (s : σ) : σ :=
  (List.range n).foldl (fun s i => body i s) s

/-- Modelled from the spec: the alignment class `Msa` (`msa.h` is not among the sources).
Only the read-only accessors used by the statistics are modelled: the number of columns,
the number of sequences (rows), the alphabet string, the symbol at `(row, column)` and the
number of symbol types of a column. -/
structure Msa where
  getNcol : Nat
  getNseq : Nat
  getAlphabet : List Char
  getSymbol : Nat → Nat → Char
  getNtype : Nat → Nat

/-- Modelled from the spec: the fields of the singleton `Options::Get()` (`options.h` is
not among the sources) read by the statistics; `output_name` only names the file. -/
structure Options where
  verbose : Bool
  global : Bool

/-- The macro `MIN(x,y)  (x < y ? x : y)`. -/
def MIN (x y : Nat) : Nat := if x < y then x else y

/-- The operating-system facts the code branches on: whether `calloc(nmemb, size)`
returns a non-null pointer (taken to depend on the arguments only), and whether the
output file could be opened (`file.is_open()`). -/
structure Env where
  calloc : Nat → Nat → Bool
  is_open : Bool

/-- The value of `sizeof(float*)` (LP64). -/
def sizeofPtr : Nat := 8

/-- The value of `sizeof(float)`. -/
def sizeofFloat : Nat := 4

/-- One item sent to `cout`: a piece of text or a number. -/
inductive Tok (F : Type) where
  | text (s : String) : Tok F
  | num (v : F) : Tok F

/-- What one call writes: the items sent to `cout` and the values written to the output
file, one per line. -/
structure Output (F : Type) where
  cout : List (Tok F)
  file : List F

/-- The data members of `WEntStat` used by wentropy.cpp (they are those of `TridStat` in
trident.h plus the probability matrix `p`; a null `p` or a null row is the empty list). -/
structure WEntStat (F : Type) where
  ncol : Nat
  N : Nat
  p : List (List F)
  w : List F
  col_cons : List F

/-- A freshly constructed `WEntStat`: no matrix, empty vectors. -/
def WEntStat.fresh {F : Type} : WEntStat F :=
  { ncol := 0, N := 0, p := [], w := [], col_cons := [] }

section Code

variable {F : Type} [Zero F] [One F] [Add F] [Sub F] [Mul F] [Div F] [NatCast F]
  [DecidableEq F]

/-- The inner loop of `calcSeqWeight` (wentropy.cpp:67-72): `n`, the number of rows `seq`
whose symbol in column `x` equals that of row `i`. -/
def countOcc (msa : Msa) (i x : Nat) : Nat :=
  forLoop msa.getNseq
    (fun seq n => if msa.getSymbol i x = msa.getSymbol seq x then n + 1 else n) 0

/-- Embedding of `WEntStat::calcSeqWeight` (wentropy.cpp:53-77). -/
def WEntStat.calcSeqWeight (msa : Msa) (i : Nat) : F :=
  let L := msa.getNcol
  let w : F := forLoop L
    (fun x w =>
      let k := msa.getNtype x
      let n := countOcc msa i x
      w + (1 : F) / (((n * k : Nat)) : F)) 0
  w / (L : F)

/-- Allocation of the probability matrix (wentropy.cpp:98-110): `calloc` gives zeroed
memory; a failed allocation exits. -/
def allocProba (env : Env) (ncol K : Nat) : Option (List (List F)) :=
  if env.calloc ncol sizeofPtr then
    forLoop ncol
      (fun i (r : Option (List (List F))) =>
        r.bind (fun p =>
          if env.calloc K sizeofFloat then some (p.set i (List.replicate K 0)) else none))
      (some (List.replicate ncol []))
  else none

/-- The loop of wentropy.cpp:113-115: one weight is pushed per sequence. -/
def pushWeights (msa : Msa) (N : Nat) (w : List F) : List F :=
  forLoop N (fun seq w => w ++ [WEntStat.calcSeqWeight msa seq]) w

/-- The verbose block (wentropy.cpp:118-125). -/
def printWeights (opts : Options) (N : Nat) (w : List F) : List (Tok F) :=
  if opts.verbose then
    forLoop N (fun seq out => out ++ [Tok.num (w.getD seq 0), Tok.text "\n"])
      [Tok.text "Seq weights :\n"] ++ [Tok.text "\n"]
  else []

/-- The loop over the rows `j` (wentropy.cpp:133-137): `p[x][a] += w[j]` for the rows
carrying `alphabet[a]` in column `x`. -/
def accumProba (msa : Msa) (alphabet : List Char) (N : Nat) (w : List F) (x a : Nat)
    (p : List (List F)) : List (List F) :=
  forLoop N
    (fun j p =>
      if msa.getSymbol j x = alphabet.getD a (Char.ofNat 0) then
        p.set x ((p.getD x []).set a ((p.getD x []).getD a 0 + w.getD j 0))
      else p) p

/-- The body of the loop over the alphabet (wentropy.cpp:133-140) for column `x` and
alphabet index `a`, on the pair `(p, col_cons)`. -/
def scoreSymbol (log : F → F) (msa : Msa) (alphabet : List Char) (N : Nat) (w : List F)
    (x a : Nat) (s : List (List F) × List F) : List (List F) × List F :=
  let p := accumProba msa alphabet N w x a s.1
  let pxa := (p.getD x []).getD a 0
  if pxa ≠ 0 then (p, s.2.set x (s.2.getD x 0 - pxa * log pxa)) else (p, s.2)

/-- The loop over the alphabet (wentropy.cpp:132-141) for column `x`. -/
def scoreSymbols (log : F → F) (msa : Msa) (alphabet : List Char) (K N : Nat) (w : List F)
    (x : Nat) (s : List (List F) × List F) : List (List F) × List F :=
  forLoop K (fun a s => scoreSymbol log msa alphabet N w x a s) s

/-- The body of the loop over the columns (wentropy.cpp:131-142) for column `x`:
`col_cons.push_back(0.0)`, the loop over the alphabet, `col_cons[x] *= lambda`. -/
def scoreColumn (log : F → F) (msa : Msa) (alphabet : List Char) (K N : Nat)
    (lambda : F) (w : List F) (x : Nat) (s : List (List F) × List F) :
    List (List F) × List F :=
  let s := scoreSymbols log msa alphabet K N w x (s.1, s.2 ++ [0])
  (s.1, s.2.set x (s.2.getD x 0 * lambda))

/-- The loop over the columns (wentropy.cpp:130-143), on the pair `(p, col_cons)`. -/
def scoreColumns (log : F → F) (msa : Msa) (alphabet : List Char) (K N ncol : Nat)
    (lambda : F) (w : List F) (s : List (List F) × List F) : List (List F) × List F :=
  forLoop ncol (fun x s => scoreColumn log msa alphabet K N lambda w x s) s

/-- The output section of `WEntStat::calculateStatistic` (wentropy.cpp:152-162): the
values written to the file. -/
def writeScores (opts : Options) (ncol : Nat) (col_cons : List F) : List F :=
  if opts.global then
    let total : F := forLoop ncol (fun col total => total + col_cons.getD col 0) 0
    [total / (ncol : F)]
  else
    forLoop ncol (fun col file => file ++ [col_cons.getD col 0]) []

/-- Embedding of `WEntStat::calculateStatistic` (wentropy.cpp:89-164), with `log` the
natural logarithm of `<cmath>`.  The result is the object after the call together with
what was written, or `none` when the process exits. -/
def WEntStat.calculateStatistic (log : F → F) (env : Env) (opts : Options) (msa : Msa)
    (self : WEntStat F) : Option (WEntStat F × Output F) :=
  let ncol := msa.getNcol
  let N := msa.getNseq
  let alphabet := msa.getAlphabet
  let K := alphabet.length
  match allocProba env ncol K with
  | none => none
  | some p =>
    let w := pushWeights msa N self.w
    let cout := printWeights opts N w
    let lambda : F := 1 / log ((MIN K N : Nat) : F)
    let s := scoreColumns log msa alphabet K N ncol lambda w (p, self.col_cons)
    if env.is_open then
      some ({ ncol := ncol, N := N, p := s.1, w := w, col_cons := s.2 },
            { cout := cout, file := writeScores opts ncol s.2 })
    else none

/-- Embedding of `Stat1D::printStatistic` (statistic.h:54-72) on the member `col_stat`:
the values written to the file, or `none` when the file cannot be opened. -/
def Stat1D.printStatistic (env : Env) (opts : Options) (col_stat : List F) :
    Option (List F) :=
  if env.is_open then
    if opts.global then
      let total : F := forLoop col_stat.length (fun col total => total + col_stat.getD col 0) 0
      some [total / (col_stat.length : F)]
    else
      some (forLoop col_stat.length (fun col file => file ++ [col_stat.getD col 0]) [])
  else none

end Code

/-! ## Reference quantities of the specification -/

section Spec

variable {F : Type} [Field F] [DecidableEq F]

/-- Specification side: `n_{x,i}`, the number of rows whose symbol in column `x` equals
that of row `i`. -/
def specN (msa : Msa) (x i : Nat) : Nat :=
  ((Finset.range msa.getNseq).filter
    (fun seq => msa.getSymbol seq x = msa.getSymbol i x)).card

/-- Specification side: `w_i = (1/L) * Σ_x 1 / (k_x * n_{x,i})`. -/
def specWeight (msa : Msa) (i : Nat) : F :=
  (1 / (msa.getNcol : F)) *
    ∑ x in Finset.range msa.getNcol, 1 / ((msa.getNtype x : F) * (specN msa x i : F))

/-- Specification side: `p(x,a)`, the sum of `w_j` over the rows `j` with
`getSymbol(j, x) == alphabet[a]`. -/
def specP (msa : Msa) (w : Nat → F) (x a : Nat) : F :=
  ∑ j in (Finset.range msa.getNseq).filter
    (fun j => msa.getSymbol j x = msa.getAlphabet.getD a (Char.ofNat 0)), w j

/-- Specification side: `- Σ_a p(x,a) ln p(x,a)`, the terms with `p(x,a) = 0` skipped. -/
def specEntropy (log : F → F) (msa : Msa) (w : Nat → F) (x : Nat) : F :=
  - ∑ a in (Finset.range msa.getAlphabet.length).filter (fun a => specP msa w x a ≠ 0),
      specP msa w x a * log (specP msa w x a)

/-- Specification side: the term of symbol `a` in the entropy sum of column `x`. -/
def specTerm (log : F → F) (msa : Msa) (w : Nat → F) (x a : Nat) : F :=
  if specP msa w x a ≠ 0 then specP msa w x a * log (specP msa w x a) else 0

/-- Specification side: the number of distinct symbols occurring in column `x`. -/
def distinctCount (msa : Msa) (x : Nat) : Nat :=
  ((Finset.range msa.getNseq).image (fun j => msa.getSymbol j x)).card

end Spec


/-! ## Binary floating-point arithmetic (IEEE 754, round to nearest, ties to even) -/

/-- Floor of the binary logarithm of `n` (for `1 ≤ n < 2 ^ 8192`), by binary search on the
exponent. -/
def ilog2 (n : Nat) : Nat :=
  [4096, 2048, 1024, 512, 256, 128, 64, 32, 16, 8, 4, 2, 1].foldl
    (fun l k => if 2 ^ (l + k) ≤ n then l + k else l) 0

/-- A binary floating-point datum: the finite number `m * 2 ^ e`, an infinity or a NaN.
The sign of zero is not represented (`-0.0` and `+0.0` are the same datum `fin 0 0`). -/
inductive Fp where
  | fin (m : Int) (e : Int) : Fp
  | inf (neg : Bool) : Fp
  | nan : Fp
  deriving DecidableEq

/-- A binary format: the number of significand bits, and the least and greatest exponent
of the unit in the last place. -/
structure Fmt where
  prec : Nat
  emin : Int
  emax : Int

/-- The format `float` (IEEE binary32). -/
def binary32 : Fmt := { prec := 24, emin := -149, emax := 104 }

/-- The format `double` (IEEE binary64). -/
def binary64 : Fmt := { prec := 53, emin := -1074, emax := 971 }

/-- The datum of format `f` nearest to the rational `± n / d` (`d > 0`), ties to the even
significand; an infinity when the rounded magnitude exceeds the format. -/
def Fp.round (f : Fmt) (neg : Bool) (n d : Nat) : Fp :=
  if n = 0 then Fp.fin 0 0
  else
    let l0 : Int := (ilog2 n : Int) - (ilog2 d : Int)
    let l : Int :=
      if (if 0 ≤ l0 then d * 2 ^ l0.toNat ≤ n else d ≤ n * 2 ^ (-l0).toNat) then l0
      else l0 - 1
    let e : Int := max f.emin (l - ((f.prec : Int) - 1))
    let num : Nat := if e < 0 then n * 2 ^ (-e).toNat else n
    let den : Nat := if e < 0 then d else d * 2 ^ e.toNat
    let q : Nat := num / den
    let r : Nat := num % den
    let q1 : Nat := if den < 2 * r ∨ (2 * r = den ∧ q % 2 = 1) then q + 1 else q
    let m : Nat := if q1 = 2 ^ f.prec then 2 ^ (f.prec - 1) else q1
    let e1 : Int := if q1 = 2 ^ f.prec then e + 1 else e
    if f.emax < e1 then Fp.inf neg
    else if m = 0 then Fp.fin 0 0
    else Fp.fin (if neg then -(m : Int) else (m : Int)) e1

/-- The datum of format `f` nearest to the number `s * 2 ^ e`. -/
def Fp.ofScaled (f : Fmt) (s e : Int) : Fp :=
  if 0 ≤ e then Fp.round f (decide (s < 0)) (s.natAbs * 2 ^ e.toNat) 1
  else Fp.round f (decide (s < 0)) s.natAbs (2 ^ (-e).toNat)

/-- Conversion of a non-negative integer to format `f`. -/
def Fp.ofNat (f : Fmt) (n : Nat) : Fp := Fp.round f false n 1

/-- Negation. -/
def Fp.neg : Fp → Fp
  | Fp.fin m e => Fp.fin (-m) e
  | Fp.inf s => Fp.inf (!s)
  | Fp.nan => Fp.nan

/-- Addition in format `f`. -/
def Fp.add (f : Fmt) : Fp → Fp → Fp
  | Fp.nan, _ => Fp.nan
  | _, Fp.nan => Fp.nan
  | Fp.inf s, Fp.inf t => if s = t then Fp.inf s else Fp.nan
  | Fp.inf s, Fp.fin _ _ => Fp.inf s
  | Fp.fin _ _, Fp.inf t => Fp.inf t
  | Fp.fin m1 e1, Fp.fin m2 e2 =>
    Fp.ofScaled f (m1 * 2 ^ (e1 - min e1 e2).toNat + m2 * 2 ^ (e2 - min e1 e2).toNat)
      (min e1 e2)

/-- Subtraction in format `f`. -/
def Fp.sub (f : Fmt) (a b : Fp) : Fp := Fp.add f a (Fp.neg b)

/-- Multiplication in format `f`. -/
def Fp.mul (f : Fmt) : Fp → Fp → Fp
  | Fp.nan, _ => Fp.nan
  | _, Fp.nan => Fp.nan
  | Fp.inf s, Fp.inf t => Fp.inf (xor s t)
  | Fp.inf s, Fp.fin m _ => if m = 0 then Fp.nan else Fp.inf (xor s (decide (m < 0)))
  | Fp.fin m _, Fp.inf t => if m = 0 then Fp.nan else Fp.inf (xor (decide (m < 0)) t)
  | Fp.fin m1 e1, Fp.fin m2 e2 => Fp.ofScaled f (m1 * m2) (e1 + e2)

/-- Division in format `f`; a zero divisor is `+0.0`. -/
def Fp.div (f : Fmt) : Fp → Fp → Fp
  | Fp.nan, _ => Fp.nan
  | _, Fp.nan => Fp.nan
  | Fp.inf _, Fp.inf _ => Fp.nan
  | Fp.inf s, Fp.fin m _ => Fp.inf (xor s (decide (m < 0)))
  | Fp.fin _ _, Fp.inf _ => Fp.fin 0 0
  | Fp.fin m1 e1, Fp.fin m2 e2 =>
    if m2 = 0 then (if m1 = 0 then Fp.nan else Fp.inf (decide (m1 < 0)))
    else if 0 ≤ e1 - e2 then
      Fp.round f (xor (decide (m1 < 0)) (decide (m2 < 0)))
        (m1.natAbs * 2 ^ (e1 - e2).toNat) m2.natAbs
    else
      Fp.round f (xor (decide (m1 < 0)) (decide (m2 < 0)))
        m1.natAbs (m2.natAbs * 2 ^ (e2 - e1).toNat)

/-- Conversion of a datum to format `f` (`double` to `float` on assignment). -/
def Fp.convert (f : Fmt) : Fp → Fp
  | Fp.fin m e => Fp.ofScaled f m e
  | Fp.inf s => Fp.inf s
  | Fp.nan => Fp.nan

/-- Comparison `a < b` of two data (false when one of them is a NaN). -/
def Fp.lt : Fp → Fp → Bool
  | Fp.nan, _ => false
  | _, Fp.nan => false
  | Fp.inf s, Fp.inf t => s && !t
  | Fp.inf s, Fp.fin _ _ => s
  | Fp.fin _ _, Fp.inf t => !t
  | Fp.fin m1 e1, Fp.fin m2 e2 =>
    decide (m1 * 2 ^ (e1 - min e1 e2).toNat < m2 * 2 ^ (e2 - min e1 e2).toNat)

/-- The rational value of a finite datum (`0` for an infinity or a NaN). -/
def Fp.toRat : Fp → ℚ
  | Fp.fin m e => (m : ℚ) * (2 : ℚ) ^ e
  | Fp.inf _ => 0
  | Fp.nan => 0

/-- A value of the C++ type `float`. -/
structure F32 where
  val : Fp
  deriving DecidableEq

/-- A value of the C++ type `double`. -/
structure F64 where
  val : Fp
  deriving DecidableEq

instance F32.instZero : Zero F32 := ⟨⟨Fp.fin 0 0⟩⟩
instance F32.instOne : One F32 := ⟨⟨Fp.ofNat binary32 1⟩⟩
instance F32.instNatCast : NatCast F32 := ⟨fun n => ⟨Fp.ofNat binary32 n⟩⟩
instance F32.instAdd : Add F32 := ⟨fun a b => ⟨Fp.add binary32 a.val b.val⟩⟩
instance F32.instSub : Sub F32 := ⟨fun a b => ⟨Fp.sub binary32 a.val b.val⟩⟩
instance F32.instMul : Mul F32 := ⟨fun a b => ⟨Fp.mul binary32 a.val b.val⟩⟩
instance F32.instDiv : Div F32 := ⟨fun a b => ⟨Fp.div binary32 a.val b.val⟩⟩
instance F32.instLT : LT F32 := ⟨fun a b => Fp.lt a.val b.val = true⟩
instance F32.instDecidableLT (a b : F32) : Decidable (a < b) :=
  inferInstanceAs (Decidable (Fp.lt a.val b.val = true))

instance F64.instOne : One F64 := ⟨⟨Fp.ofNat binary64 1⟩⟩
instance F64.instNatCast : NatCast F64 := ⟨fun n => ⟨Fp.ofNat binary64 n⟩⟩
instance F64.instDiv : Div F64 := ⟨fun a b => ⟨Fp.div binary64 a.val b.val⟩⟩

/-- Conversion of a `double` to `float` (assignment to a `float` variable). -/
def F64.toF32 (x : F64) : F32 := ⟨Fp.convert binary32 x.val⟩

/-- A `logf` of which one value is known: `y` at the argument `x` (a NaN stands for the
values at the other arguments). -/
def F32.logAt (x y : F32) : F32 → F32 := fun z => if z = x then y else ⟨Fp.nan⟩

/-- A `log` on `double` of which one value is known: `y` at the argument `x`. -/
def F64.logAt (x y : F64) : F64 → F64 := fun z => if z = x then y else ⟨Fp.nan⟩

/-- Embedding of `WEntStat::calculateStatistic` (wentropy.cpp:89-164) in binary32
arithmetic: `logf` is the `float` overload of `log` applied to `p[x][a]` (line 139), `log`
the `double` one applied to the integer `MIN(K,N)` (line 128), where `1.0 / log(...)` is a
`double` division whose result is converted to the `float` variable `lambda`. -/
def Binary32.calculateStatistic (logf : F32 → F32) (log : F64 → F64) (env : Env)
    (opts : Options) (msa : Msa) (self : WEntStat F32) :
    Option (WEntStat F32 × Output F32) :=
  let ncol := msa.getNcol
  let N := msa.getNseq
  let alphabet := msa.getAlphabet
  let K := alphabet.length
  match allocProba env ncol K with
  | none => none
  | some p =>
    let w := pushWeights msa N self.w
    let cout := printWeights opts N w
    let lambda : F32 := F64.toF32 ((1 : F64) / log ((MIN K N : Nat) : F64))
    let s := scoreColumns logf msa alphabet K N ncol lambda w (p, self.col_cons)
    if env.is_open then
      some ({ ncol := ncol, N := N, p := s.1, w := w, col_cons := s.2 },
            { cout := cout, file := writeScores opts ncol s.2 })
    else none


/-! ## The trident statistic (`trident.h`) -/

/-- The data members of `TridStat` (trident.h:29-35). -/
structure TridStat (F : Type) where
  ncol : Nat
  N : Nat
  w : List F
  t : List F
  r : List F
  g : List F
  col_cons : List F

/-- Modelled from the spec: the final step of `TridStat::calculateStatistic`, whose body
(trident.cpp) is not among the sources.  From the vectors `t`, `r`, `g` it fills
`col_cons` with `(1 - t(x))^a * (1 - r(x))^b * (1 - g(x))^c` for the columns
`x = 0, ..., ncol - 1`; `pow` is the power function of `<cmath>` and `a`, `b`, `c` are the
fixed exponents. -/
def TridStat.conservation {F : Type} [Field F] (pow : F → F → F) (a b c : F)
    (self : TridStat F) : TridStat F :=
  { self with
    col_cons := forLoop self.ncol
      (fun x cc => cc ++ [pow (1 - self.t.getD x 0) a * pow (1 - self.r.getD x 0) b *
        pow (1 - self.g.getD x 0) c]) [] }

/-! ## Concrete alignments and environments -/

/-- Scenario A: three identical rows, two columns, alphabet `ACG`. -/
def msaA : Msa where
  getNcol := 2
  getNseq := 3
  getAlphabet := ['A', 'C', 'G']
  getSymbol := fun _ _ => 'A'
  getNtype := fun _ => 1

/-- Scenario B: rows `A` and `C`, one column, alphabet `AC`. -/
def msaB : Msa where
  getNcol := 1
  getNseq := 2
  getAlphabet := ['A', 'C']
  getSymbol := fun i _ => if i = 0 then 'A' else 'C'
  getNtype := fun _ => 2

/-- An environment in which every allocation succeeds and the output file opens. -/
def envOk : Env where
  calloc := fun _ _ => true
  is_open := true

/-- Per-column output, not verbose. -/
def optsPerColumn : Options where
  verbose := false
  global := false

/-- An alignment whose alphabet is empty: one row, one column. -/
def msaEmpty : Msa where
  getNcol := 1
  getNseq := 1
  getAlphabet := []
  getSymbol := fun _ _ => 'A'
  getNtype := fun _ => 1

/-- An environment in which `calloc` returns a null pointer exactly for requests of zero
elements, and the output file opens. -/
def envNullOnZero : Env where
  calloc := fun nmemb _ => decide (nmemb ≠ 0)
  is_open := true

/-- A trident object with two columns, the first fully conserved on the three axes. -/
def tridExample (F : Type) [Field F] : TridStat F where
  ncol := 2
  N := 3
  w := []
  t := [0, 1 / 2]
  r := [0, 1 / 4]
  g := [0, 0]
  col_cons := []

/-- Ten identical rows, one column, alphabet `ACGT`. -/
def msaTen : Msa where
  getNcol := 1
  getNseq := 10
  getAlphabet := ['A', 'C', 'G', 'T']
  getSymbol := fun _ _ => 'A'
  getNtype := fun _ => 1

/-- Eleven identical rows, one column, alphabet `ACGT`. -/
def msaEleven : Msa where
  getNcol := 1
  getNseq := 11
  getAlphabet := ['A', 'C', 'G', 'T']
  getSymbol := fun _ _ => 'A'
  getNtype := fun _ => 1

/-- A single row `A`, one column, alphabet `AC`. -/
def msaOne : Msa where
  getNcol := 1
  getNseq := 1
  getAlphabet := ['A', 'C']
  getSymbol := fun _ _ => 'A'
  getNtype := fun _ => 1

/-! ## Auxiliary notions used by the proofs -/

section Aux

variable {F : Type}

/-- The entry `p[x][a]` of a matrix. -/
def readP [Zero F] (p : List (List F)) (x a : Nat) : F := (p.getD x []).getD a 0

/-- Two matrices of the same shape. -/
def SameShape (q p : List (List F)) : Prop :=
  q.length = p.length ∧ ∀ x, (q.getD x []).length = (p.getD x []).length

end Aux

/-! ## Loops, lists and matrices -/

section Loops

variable {σ : Type}

theorem forLoop_zero (body : Nat → σ → σ) (s : σ) : forLoop 0 body s = s := rfl

theorem forLoop_succ (n : Nat) (body : Nat → σ → σ) (s : σ) :
    forLoop (n + 1) body s = body n (forLoop n body s) := by
  simp [forLoop, List.range_succ, List.foldl_append]

/-- A loop whose body preserves an invariant preserves it. -/
theorem forLoop_induction (P : Nat → σ → Prop) (n : Nat) (body : Nat → σ → σ) (s : σ)
    (h0 : P 0 s) (hstep : ∀ i t, i < n → P i t → P (i + 1) (body i t)) :
    P n (forLoop n body s) := by
  induction n with
  | zero => simpa [forLoop_zero] using h0
  | succ m ih =>
    rw [forLoop_succ]
    exact hstep m _ (Nat.lt_succ_self m)
      (ih (fun i t hi hP => hstep i t (Nat.lt_succ_of_lt hi) hP))

theorem forLoop_sum {F : Type} [AddCommMonoid F] (n : Nat) (f : Nat → F) (a : F) :
    forLoop n (fun x acc => acc + f x) a = a + ∑ x in Finset.range n, f x := by
  induction n with
  | zero => simp [forLoop_zero]
  | succ m ih => rw [forLoop_succ, ih, Finset.sum_range_succ, add_assoc]

theorem forLoop_count (n : Nat) (P : Nat → Prop) [DecidablePred P] :
    forLoop n (fun j c => if P j then c + 1 else c) 0 = ((Finset.range n).filter P).card := by
  induction n with
  | zero => simp [forLoop_zero]
  | succ m ih =>
    rw [forLoop_succ, ih, Finset.range_succ, Finset.filter_insert]
    by_cases h : P m
    · simp [h]
    · simp [h]

theorem forLoop_push {α : Type} (n : Nat) (f : Nat → α) (l : List α) :
    forLoop n (fun i acc => acc ++ [f i]) l = l ++ (List.range n).map f := by
  induction n with
  | zero => simp [forLoop_zero]
  | succ m ih => rw [forLoop_succ, ih, List.range_succ, List.map_append]; simp

end Loops

section Weights

variable {F : Type} [Field F]

theorem countOcc_eq_specN (msa : Msa) (i x : Nat) : countOcc msa i x = specN msa x i := by
  unfold countOcc specN
  rw [forLoop_count]
  congr 1
  apply Finset.filter_congr
  intro s _
  exact eq_comm

theorem calcSeqWeight_eq_specWeight (msa : Msa) (i : Nat) :
    (WEntStat.calcSeqWeight msa i : F) = specWeight msa i := by
  unfold WEntStat.calcSeqWeight specWeight
  simp only [forLoop_sum, zero_add, countOcc_eq_specN]
  rw [div_eq_mul_one_div, mul_comm]
  congr 1
  apply Finset.sum_congr rfl
  intro x _
  push_cast
  rw [mul_comm]

end Weights

section Lists
variable {α : Type}

theorem getD_set_eq (l : List α) (x : Nat) (v d : α) (h : x < l.length) :
    (l.set x v).getD x d = v := by
  simp [List.getD_eq_getElem?_getD, List.getElem?_set, h]

theorem getD_set_ne (l : List α) (x y : Nat) (v d : α) (h : x ≠ y) :
    (l.set x v).getD y d = l.getD y d := by
  simp [List.getD_eq_getElem?_getD, List.getElem?_set, h]

theorem getD_push (l : List α) (y : Nat) (d : α) :
    (l ++ [d]).getD y d = l.getD y d := by
  simp only [List.getD_eq_getElem?_getD, List.getElem?_append]
  split
  · rfl
  · rename_i h
    have h1 : l.length ≤ y := Nat.le_of_not_lt h
    rw [List.getElem?_eq_none h1]
    cases hy : y - l.length with
    | zero => simp
    | succ k => simp

end Lists

section Matrix
variable {F : Type}

theorem SameShape.refl (p : List (List F)) : SameShape p p := ⟨rfl, fun _ => rfl⟩

theorem SameShape.trans {r q p : List (List F)} (h1 : SameShape r q) (h2 : SameShape q p) :
    SameShape r p := ⟨h1.1.trans h2.1, fun x => (h1.2 x).trans (h2.2 x)⟩

theorem sameShape_upd (p : List (List F)) (x a : Nat) (v : F) :
    SameShape (p.set x ((p.getD x []).set a v)) p := by
  refine ⟨by simp, fun y => ?_⟩
  by_cases hxy : x = y
  · subst hxy
    by_cases hx : x < p.length
    · rw [getD_set_eq _ _ _ _ hx]; simp
    · rw [List.set_eq_of_length_le (Nat.le_of_not_lt hx)]
  · rw [getD_set_ne _ _ _ _ _ hxy]

theorem readP_upd_eq [Zero F] (p : List (List F)) (x a : Nat) (v : F) (hx : x < p.length)
    (ha : a < (p.getD x []).length) :
    readP (p.set x ((p.getD x []).set a v)) x a = v := by
  unfold readP
  rw [getD_set_eq _ _ _ _ hx, getD_set_eq _ _ _ _ ha]

theorem readP_upd_ne [Zero F] (p : List (List F)) (x a y b : Nat) (v : F) (h : ¬ (y = x ∧ b = a)) :
    readP (p.set x ((p.getD x []).set a v)) y b = readP p y b := by
  unfold readP
  by_cases hxy : x = y
  · subst hxy
    have hab : a ≠ b := fun e => h ⟨rfl, e.symm⟩
    by_cases hx : x < p.length
    · rw [getD_set_eq _ _ _ _ hx, getD_set_ne _ _ _ _ _ hab]
    · rw [List.set_eq_of_length_le (Nat.le_of_not_lt hx)]
  · rw [getD_set_ne _ _ _ _ _ hxy]

end Matrix

section ColumnLoops
variable {F : Type} [Field F]

theorem accumProba_spec_aux (msa : Msa) (w : List F) (x a : Nat) (p : List (List F))
    (hx : x < p.length) (ha : a < (p.getD x []).length) (n : Nat) :
    SameShape (accumProba msa msa.getAlphabet n w x a p) p ∧
    ∀ y b, readP (accumProba msa msa.getAlphabet n w x a p) y b =
      if y = x ∧ b = a then
        readP p x a + ∑ j in (Finset.range n).filter
          (fun j => msa.getSymbol j x = msa.getAlphabet.getD a (Char.ofNat 0)), w.getD j 0
      else readP p y b := by
  unfold accumProba
  refine forLoop_induction
    (fun n q => SameShape q p ∧ ∀ y b, readP q y b =
      if y = x ∧ b = a then
        readP p x a + ∑ j in (Finset.range n).filter
          (fun j => msa.getSymbol j x = msa.getAlphabet.getD a (Char.ofNat 0)), w.getD j 0
      else readP p y b) n _ p ?_ ?_
  · refine ⟨SameShape.refl p, fun y b => ?_⟩
    by_cases h : y = x ∧ b = a
    · obtain ⟨rfl, rfl⟩ := h; simp
    · simp [h]
  · rintro i t _ ⟨hs, hr⟩
    have hxt : x < t.length := by rw [hs.1]; exact hx
    have hat : a < (t.getD x []).length := by rw [hs.2 x]; exact ha
    by_cases hm : msa.getSymbol i x = msa.getAlphabet.getD a (Char.ofNat 0)
    · simp only [hm, if_true]
      refine ⟨(sameShape_upd t x a _).trans hs, fun y b => ?_⟩
      by_cases h : y = x ∧ b = a
      · obtain ⟨rfl, rfl⟩ := h
        rw [readP_upd_eq _ _ _ _ hxt hat]
        have := hr y b
        simp only [readP, and_self, if_true] at this ⊢
        rw [this, Finset.range_succ, Finset.filter_insert, if_pos hm,
          Finset.sum_insert (by simp)]
        ring
      · rw [readP_upd_ne _ _ _ _ _ _ h, hr y b]; simp [h]
    · simp only [hm, if_false]
      refine ⟨hs, fun y b => ?_⟩
      rw [hr y b, Finset.range_succ, Finset.filter_insert, if_neg hm]

theorem accumProba_spec (msa : Msa) (w : List F) (x a : Nat) (p : List (List F))
    (hx : x < p.length) (ha : a < (p.getD x []).length) :
    SameShape (accumProba msa msa.getAlphabet msa.getNseq w x a p) p ∧
    ∀ y b, readP (accumProba msa msa.getAlphabet msa.getNseq w x a p) y b =
      if y = x ∧ b = a then readP p x a + specP msa (fun j => w.getD j 0) x a
      else readP p y b :=
  accumProba_spec_aux msa w x a p hx ha msa.getNseq

end ColumnLoops

section ColumnLoops2
variable {F : Type} [Field F] [DecidableEq F]

theorem specEntropy_eq_sum (log : F → F) (msa : Msa) (w : Nat → F) (x : Nat) :
    specEntropy log msa w x = - ∑ a in Finset.range msa.getAlphabet.length, specTerm log msa w x a := by
  unfold specEntropy specTerm
  rw [Finset.sum_filter]

theorem scoreSymbols_spec_aux (log : F → F) (msa : Msa) (w : List F) (x : Nat)
    (p : List (List F)) (cc : List F) (hx : x < p.length) (hz : ∀ a, readP p x a = 0)
    (hcc : x < cc.length) (m : Nat) (hm : ∀ a, a < m → a < (p.getD x []).length) :
    SameShape (scoreSymbols log msa msa.getAlphabet m msa.getNseq w x (p, cc)).1 p ∧
    (∀ y b, readP (scoreSymbols log msa msa.getAlphabet m msa.getNseq w x (p, cc)).1 y b =
      if y = x ∧ b < m then specP msa (fun j => w.getD j 0) x b else readP p y b) ∧
    (scoreSymbols log msa msa.getAlphabet m msa.getNseq w x (p, cc)).2.length = cc.length ∧
    ∀ y, (scoreSymbols log msa msa.getAlphabet m msa.getNseq w x (p, cc)).2.getD y 0 =
      if y = x then
        cc.getD x 0 - ∑ a in Finset.range m, specTerm log msa (fun j => w.getD j 0) x a
      else cc.getD y 0 := by
  unfold scoreSymbols
  refine forLoop_induction
    (fun m s => (∀ a, a < m → a < (p.getD x []).length) →
      (SameShape s.1 p ∧
      (∀ y b, readP s.1 y b =
        if y = x ∧ b < m then specP msa (fun j => w.getD j 0) x b else readP p y b) ∧
      s.2.length = cc.length ∧
      ∀ y, s.2.getD y 0 =
        if y = x then
          cc.getD x 0 - ∑ a in Finset.range m, specTerm log msa (fun j => w.getD j 0) x a
        else cc.getD y 0)) m _ (p, cc) ?_ ?_ hm
  · intro _
    refine ⟨SameShape.refl p, fun y b => by simp, rfl, fun y => ?_⟩
    by_cases h : y = x
    · subst h; simp
    · simp [h]
  · rintro i ⟨q, c⟩ _ ih hlt
    obtain ⟨hs, hr, hl, hc⟩ := ih (fun a h => hlt a (Nat.lt_succ_of_lt h))
    simp only at hs hr hl hc
    have hxq : x < q.length := by rw [hs.1]; exact hx
    have hiq : i < (q.getD x []).length := by rw [hs.2 x]; exact hlt i (Nat.lt_succ_self i)
    obtain ⟨hs2, hr2⟩ := accumProba_spec msa w x i q hxq hiq
    have hqi : readP q x i = 0 := by rw [hr x i]; simp [hz]
    have hval : readP (accumProba msa msa.getAlphabet msa.getNseq w x i q) x i =
        specP msa (fun j => w.getD j 0) x i := by
      rw [hr2 x i]; simp [hqi]
    have hreads : ∀ y b, readP (accumProba msa msa.getAlphabet msa.getNseq w x i q) y b =
        if y = x ∧ b < i + 1 then specP msa (fun j => w.getD j 0) x b else readP p y b := by
      intro y b
      by_cases h : y = x ∧ b = i
      · obtain ⟨rfl, rfl⟩ := h
        rw [hval]; simp
      · rw [hr2 y b, if_neg h, hr y b]
        by_cases h2 : y = x ∧ b < i
        · have : y = x ∧ b < i + 1 := ⟨h2.1, Nat.lt_succ_of_lt h2.2⟩
          simp [h2, this]
        · have : ¬ (y = x ∧ b < i + 1) := by
            rintro ⟨e1, e2⟩
            rcases Nat.lt_succ_iff_lt_or_eq.mp e2 with e3 | e3
            · exact h2 ⟨e1, e3⟩
            · exact h ⟨e1, e3⟩
          simp [h2, this]
    have hterm : specTerm log msa (fun j => w.getD j 0) x i =
        if specP msa (fun j => w.getD j 0) x i ≠ 0 then
          specP msa (fun j => w.getD j 0) x i * log (specP msa (fun j => w.getD j 0) x i)
        else 0 := rfl
    have hbody : scoreSymbol log msa msa.getAlphabet msa.getNseq w x i (q, c) =
        if specP msa (fun j => w.getD j 0) x i ≠ 0 then
          (accumProba msa msa.getAlphabet msa.getNseq w x i q,
            c.set x (c.getD x 0 - specP msa (fun j => w.getD j 0) x i *
              log (specP msa (fun j => w.getD j 0) x i)))
        else (accumProba msa msa.getAlphabet msa.getNseq w x i q, c) := by
      unfold readP at hval
      simp only [scoreSymbol, hval]
    simp only [hbody]
    by_cases hne : specP msa (fun j => w.getD j 0) x i ≠ 0
    · rw [if_pos hne] at hterm ⊢
      refine ⟨hs2.trans hs, hreads, by simp [hl], fun y => ?_⟩
      by_cases h : y = x
      · subst h
        simp only [if_true]
        rw [getD_set_eq _ _ _ _ (by rw [hl]; exact hcc), hc y, if_pos rfl,
          Finset.sum_range_succ, hterm]
        ring
      · simp only [if_neg h]
        rw [getD_set_ne _ _ _ _ _ (Ne.symm h), hc y, if_neg h]
    · rw [if_neg hne] at hterm ⊢
      refine ⟨hs2.trans hs, hreads, hl, fun y => ?_⟩
      rw [hc y, Finset.sum_range_succ, hterm, add_zero]

end ColumnLoops2

section ColumnLoops3
variable {F : Type} [Field F] [DecidableEq F]

theorem scoreColumns_spec_aux (log : F → F) (msa : Msa) (lambda : F) (w : List F)
    (p : List (List F)) (cc : List F) (hz : ∀ x a, readP p x a = 0) (n : Nat)
    (hn : ∀ x, x < n → x < p.length ∧ ∀ a, a < msa.getAlphabet.length → a < (p.getD x []).length) :
    SameShape (scoreColumns log msa msa.getAlphabet msa.getAlphabet.length msa.getNseq n
      lambda w (p, cc)).1 p ∧
    (∀ y b, readP (scoreColumns log msa msa.getAlphabet msa.getAlphabet.length msa.getNseq n
        lambda w (p, cc)).1 y b =
      if y < n ∧ b < msa.getAlphabet.length then specP msa (fun j => w.getD j 0) y b else 0) ∧
    (scoreColumns log msa msa.getAlphabet msa.getAlphabet.length msa.getNseq n
      lambda w (p, cc)).2.length = cc.length + n ∧
    ∀ y, (scoreColumns log msa msa.getAlphabet msa.getAlphabet.length msa.getNseq n
        lambda w (p, cc)).2.getD y 0 =
      if y < n then
        (cc.getD y 0 - ∑ a in Finset.range msa.getAlphabet.length,
          specTerm log msa (fun j => w.getD j 0) y a) * lambda
      else cc.getD y 0 := by
  unfold scoreColumns
  refine forLoop_induction
    (fun n s => (∀ x, x < n → x < p.length ∧
        ∀ a, a < msa.getAlphabet.length → a < (p.getD x []).length) →
      (SameShape s.1 p ∧
      (∀ y b, readP s.1 y b =
        if y < n ∧ b < msa.getAlphabet.length then specP msa (fun j => w.getD j 0) y b
        else 0) ∧
      s.2.length = cc.length + n ∧
      ∀ y, s.2.getD y 0 =
        if y < n then
          (cc.getD y 0 - ∑ a in Finset.range msa.getAlphabet.length,
            specTerm log msa (fun j => w.getD j 0) y a) * lambda
        else cc.getD y 0)) n _ (p, cc) ?_ ?_ hn
  · intro _
    exact ⟨SameShape.refl p, fun y b => by simp [hz], rfl, fun y => by simp⟩
  · rintro i ⟨q, c⟩ _ ih hlt
    obtain ⟨hs, hr, hl, hc⟩ := ih (fun x h => hlt x (Nat.lt_succ_of_lt h))
    simp only at hs hr hl hc
    obtain ⟨hip, hia⟩ := hlt i (Nat.lt_succ_self i)
    have hxq : i < q.length := by rw [hs.1]; exact hip
    have hzq : ∀ a, readP q i a = 0 := fun a => by rw [hr i a]; simp
    have hcc : i < (c ++ [(0 : F)]).length := by simp [hl]; omega
    have hrow : ∀ a, a < msa.getAlphabet.length → a < (q.getD i []).length :=
      fun a ha => by rw [hs.2 i]; exact hia a ha
    obtain ⟨hs2, hr2, hl2, hc2⟩ := scoreSymbols_spec_aux log msa w i q (c ++ [0]) hxq hzq hcc
      msa.getAlphabet.length hrow
    have hci : c.getD i 0 = cc.getD i 0 := by rw [hc i]; simp
    simp only [scoreColumn]
    refine ⟨hs2.trans hs, fun y b => ?_, ?_, fun y => ?_⟩
    · rw [hr2 y b]
      by_cases h : y = i ∧ b < msa.getAlphabet.length
      · obtain ⟨rfl, hb⟩ := h
        simp [hb]
      · rw [if_neg h, hr y b]
        by_cases h2 : y < i ∧ b < msa.getAlphabet.length
        · have : y < i + 1 ∧ b < msa.getAlphabet.length := ⟨Nat.lt_succ_of_lt h2.1, h2.2⟩
          simp [h2, this]
        · have : ¬ (y < i + 1 ∧ b < msa.getAlphabet.length) := by
            rintro ⟨e1, e2⟩
            rcases Nat.lt_succ_iff_lt_or_eq.mp e1 with e3 | e3
            · exact h2 ⟨e3, e2⟩
            · exact h ⟨e3, e2⟩
          simp [h2, this]
    · rw [List.length_set, hl2]; simp [hl]; omega
    · by_cases h : y = i
      · subst h
        rw [getD_set_eq _ _ _ _ (by rw [hl2]; exact hcc), hc2 y, if_pos rfl, getD_push, hci,
          if_pos (Nat.lt_succ_self y)]
      · rw [getD_set_ne _ _ _ _ _ (Ne.symm h), hc2 y, if_neg h, getD_push, hc y]
        by_cases h2 : y < i
        · simp [h2, Nat.lt_succ_of_lt h2]
        · have : ¬ y < i + 1 := by omega
          simp [h2, this]

end ColumnLoops3

section Pieces

variable {F : Type} [Field F]

theorem MIN_eq_min (x y : Nat) : MIN x y = min x y := by
  unfold MIN
  split <;> omega

theorem allocProba_ok (env : Env) (ncol K : Nat) (h1 : env.calloc ncol sizeofPtr = true)
    (h2 : env.calloc K sizeofFloat = true) :
    ∃ p : List (List F), allocProba env ncol K = some p ∧ p.length = ncol ∧
      (∀ x, x < ncol → p.getD x [] = List.replicate K 0) ∧ ∀ x a, readP p x a = 0 := by
  unfold allocProba
  rw [if_pos h1]
  have key : ∀ n, n ≤ ncol → ∃ p : List (List F),
      forLoop n (fun i (r : Option (List (List F))) =>
        r.bind (fun p =>
          if env.calloc K sizeofFloat then some (p.set i (List.replicate K 0)) else none))
        (some (List.replicate ncol [])) = some p ∧ p.length = ncol ∧
      (∀ x, x < n → p.getD x [] = List.replicate K 0) ∧ ∀ x, n ≤ x → p.getD x [] = [] := by
    intro n
    induction n with
    | zero =>
      intro _
      refine ⟨List.replicate ncol [], rfl, by simp, fun x hx => absurd hx (Nat.not_lt_zero x),
        fun x _ => ?_⟩
      simp only [List.getD_eq_getElem?_getD, List.getElem?_replicate]
      split <;> rfl
    | succ m ih =>
      intro hm
      obtain ⟨p, hp, hlen, hlo, hhi⟩ := ih (Nat.le_of_succ_le hm)
      refine ⟨p.set m (List.replicate K 0), ?_, by simp [hlen], fun x hx => ?_, fun x hx => ?_⟩
      · rw [forLoop_succ, hp]; simp [h2]
      · by_cases h : x = m
        · subst h; exact getD_set_eq _ _ _ _ (by omega)
        · rw [getD_set_ne _ _ _ _ _ (Ne.symm h)]; exact hlo x (by omega)
      · rw [getD_set_ne _ _ _ _ _ (by omega)]; exact hhi x (by omega)
  obtain ⟨p, hp, hlen, hlo, hhi⟩ := key ncol (Nat.le_refl ncol)
  refine ⟨p, hp, hlen, hlo, fun x a => ?_⟩
  unfold readP
  by_cases hx : x < ncol
  · rw [hlo x hx]
    simp only [List.getD_eq_getElem?_getD, List.getElem?_replicate]
    split <;> rfl
  · rw [hhi x (Nat.le_of_not_lt hx)]; rfl

theorem pushWeights_eq (msa : Msa) (N : Nat) (w : List F) :
    pushWeights msa N w = w ++ (List.range N).map (fun i => WEntStat.calcSeqWeight msa i) :=
  forLoop_push N _ w

theorem writeScores_perColumn (ncol : Nat) (cc : List F) (opts : Options)
    (hg : opts.global = false) :
    writeScores opts ncol cc = (List.range ncol).map (fun x => cc.getD x 0) := by
  unfold writeScores
  rw [hg]
  simpa using forLoop_push ncol (fun x => cc.getD x 0) []

theorem specP_congr (msa : Msa) (w v : Nat → F) (h : ∀ j, j < msa.getNseq → w j = v j)
    (x a : Nat) : specP msa w x a = specP msa v x a := by
  unfold specP
  apply Finset.sum_congr rfl
  intro j hj
  exact h j (Finset.mem_range.mp (Finset.mem_filter.mp hj).1)

end Pieces

section Whole

variable {F : Type} [Field F] [DecidableEq F]

theorem specTerm_congr (log : F → F) (msa : Msa) (w v : Nat → F)
    (h : ∀ j, j < msa.getNseq → w j = v j) (x a : Nat) :
    specTerm log msa w x a = specTerm log msa v x a := by
  unfold specTerm
  rw [specP_congr msa w v h]

/-- The run of `calculateStatistic` when the allocations succeed and the file opens. -/
theorem calculateStatistic_run (log : F → F) (env : Env) (opts : Options) (msa : Msa)
    (self : WEntStat F) (h1 : env.calloc msa.getNcol sizeofPtr = true)
    (h2 : env.calloc msa.getAlphabet.length sizeofFloat = true) (h3 : env.is_open = true) :
    ∃ st out, WEntStat.calculateStatistic log env opts msa self = some (st, out) ∧
      st.ncol = msa.getNcol ∧ st.N = msa.getNseq ∧
      st.w = self.w ++ (List.range msa.getNseq).map (fun i => WEntStat.calcSeqWeight msa i) ∧
      st.col_cons.length = self.col_cons.length + msa.getNcol ∧
      (∀ y, st.col_cons.getD y 0 =
        if y < msa.getNcol then
          (self.col_cons.getD y 0 - ∑ a in Finset.range msa.getAlphabet.length,
            specTerm log msa (fun j => st.w.getD j 0) y a) *
            (1 / log ((min msa.getAlphabet.length msa.getNseq : Nat) : F))
        else self.col_cons.getD y 0) ∧
      (∀ y b, readP st.p y b =
        if y < msa.getNcol ∧ b < msa.getAlphabet.length then
          specP msa (fun j => st.w.getD j 0) y b
        else 0) ∧
      out.cout = printWeights opts msa.getNseq st.w ∧
      out.file = writeScores opts msa.getNcol st.col_cons := by
  obtain ⟨p, hp, hlen, hrows, hz⟩ := allocProba_ok (F := F) env msa.getNcol
    msa.getAlphabet.length h1 h2
  have hn : ∀ x, x < msa.getNcol → x < p.length ∧
      ∀ a, a < msa.getAlphabet.length → a < (p.getD x []).length := by
    intro x hx
    refine ⟨by rw [hlen]; exact hx, fun a ha => ?_⟩
    rw [hrows x hx]; simpa using ha
  obtain ⟨_, hr, hl, hc⟩ := scoreColumns_spec_aux log msa
    (1 / log ((MIN msa.getAlphabet.length msa.getNseq : Nat) : F))
    (pushWeights msa msa.getNseq self.w) p self.col_cons hz msa.getNcol hn
  refine ⟨WEntStat.mk msa.getNcol msa.getNseq
      (scoreColumns log msa msa.getAlphabet msa.getAlphabet.length msa.getNseq
        msa.getNcol (1 / log ((MIN msa.getAlphabet.length msa.getNseq : Nat) : F))
        (pushWeights msa msa.getNseq self.w) (p, self.col_cons)).1
      (pushWeights msa msa.getNseq self.w)
      (scoreColumns log msa msa.getAlphabet msa.getAlphabet.length msa.getNseq
        msa.getNcol (1 / log ((MIN msa.getAlphabet.length msa.getNseq : Nat) : F))
        (pushWeights msa msa.getNseq self.w) (p, self.col_cons)).2,
    Output.mk (printWeights opts msa.getNseq (pushWeights msa msa.getNseq self.w))
      (writeScores opts msa.getNcol
        (scoreColumns log msa msa.getAlphabet msa.getAlphabet.length msa.getNseq
          msa.getNcol (1 / log ((MIN msa.getAlphabet.length msa.getNseq : Nat) : F))
          (pushWeights msa msa.getNseq self.w) (p, self.col_cons)).2),
    ?_, rfl, rfl, pushWeights_eq msa msa.getNseq self.w, hl, ?_, hr, rfl, rfl⟩
  · simp only [WEntStat.calculateStatistic, hp, h3, if_true]
  · intro y
    rw [hc y, MIN_eq_min]

end Whole

/-! ## Sequence weights -/

section WeightBounds
variable {F : Type} [LinearOrderedField F]

theorem specN_pos (msa : Msa) (x i : Nat) (hi : i < msa.getNseq) : 1 ≤ specN msa x i := by
  unfold specN
  apply Finset.card_pos.mpr
  exact ⟨i, Finset.mem_filter.mpr ⟨Finset.mem_range.mpr hi, rfl⟩⟩

theorem distinctCount_pos (msa : Msa) (x : Nat) (hN : 1 ≤ msa.getNseq) :
    1 ≤ distinctCount msa x := by
  unfold distinctCount
  apply Finset.card_pos.mpr
  exact ⟨msa.getSymbol 0 x, Finset.mem_image.mpr ⟨0, Finset.mem_range.mpr hN, rfl⟩⟩

theorem specWeight_pos_le_one (msa : Msa) (i : Nat) (hN : 1 ≤ msa.getNseq)
    (hL : 1 ≤ msa.getNcol) (hi : i < msa.getNseq)
    (hk : ∀ x, x < msa.getNcol → msa.getNtype x = distinctCount msa x) :
    0 < (specWeight msa i : F) ∧ (specWeight msa i : F) ≤ 1 := by
  have hLpos : (0 : F) < (msa.getNcol : F) := by exact_mod_cast hL
  have hterm : ∀ x ∈ Finset.range msa.getNcol,
      (0 : F) < 1 / ((msa.getNtype x : F) * (specN msa x i : F)) ∧
      1 / ((msa.getNtype x : F) * (specN msa x i : F)) ≤ 1 := by
    intro x hx
    have h1 : 1 ≤ msa.getNtype x := by
      rw [hk x (Finset.mem_range.mp hx)]
      exact distinctCount_pos msa x hN
    have h2 : 1 ≤ specN msa x i := specN_pos msa x i hi
    have h1F : (1 : F) ≤ (msa.getNtype x : F) := by exact_mod_cast h1
    have h2F : (1 : F) ≤ (specN msa x i : F) := by exact_mod_cast h2
    have hprod : (1 : F) ≤ (msa.getNtype x : F) * (specN msa x i : F) := by nlinarith
    have hpos : (0 : F) < (msa.getNtype x : F) * (specN msa x i : F) := by linarith
    exact ⟨by positivity, by rw [div_le_one hpos]; exact hprod⟩
  have hne : (Finset.range msa.getNcol).Nonempty := ⟨0, Finset.mem_range.mpr hL⟩
  have hsum_pos : (0 : F) < ∑ x in Finset.range msa.getNcol,
      1 / ((msa.getNtype x : F) * (specN msa x i : F)) :=
    Finset.sum_pos (fun x hx => (hterm x hx).1) hne
  have hsum_le : ∑ x in Finset.range msa.getNcol,
      1 / ((msa.getNtype x : F) * (specN msa x i : F)) ≤ (msa.getNcol : F) := by
    calc ∑ x in Finset.range msa.getNcol, 1 / ((msa.getNtype x : F) * (specN msa x i : F))
        ≤ ∑ _x in Finset.range msa.getNcol, (1 : F) :=
          Finset.sum_le_sum (fun x hx => (hterm x hx).2)
      _ = (msa.getNcol : F) := by simp
  unfold specWeight
  refine ⟨by positivity, ?_⟩
  rw [one_div, inv_mul_le_iff₀ hLpos]
  simpa using hsum_le

/-- In every column the reciprocals of the occurrence counts `n_{x,i}` add up to the
number of distinct symbols. -/
theorem sum_inv_specN (msa : Msa) (x : Nat) :
    ∑ i in Finset.range msa.getNseq, 1 / (specN msa x i : F) = (distinctCount msa x : F) := by
  unfold distinctCount
  rw [← Finset.sum_fiberwise_of_maps_to
    (g := fun j => msa.getSymbol j x)
    (t := (Finset.range msa.getNseq).image (fun j => msa.getSymbol j x))
    (fun j hj => Finset.mem_image_of_mem _ hj)]
  rw [Finset.card_eq_sum_ones, Nat.cast_sum]
  apply Finset.sum_congr rfl
  intro c hc
  obtain ⟨j0, hj0, hc0⟩ := Finset.mem_image.mp hc
  have hcard : 0 < ((Finset.range msa.getNseq).filter
      (fun j => msa.getSymbol j x = c)).card :=
    Finset.card_pos.mpr ⟨j0, Finset.mem_filter.mpr ⟨hj0, hc0⟩⟩
  have hconst : ∀ i ∈ (Finset.range msa.getNseq).filter (fun j => msa.getSymbol j x = c),
      1 / (specN msa x i : F) = 1 / (((Finset.range msa.getNseq).filter
        (fun j => msa.getSymbol j x = c)).card : F) := by
    intro i hi
    have hic : msa.getSymbol i x = c := (Finset.mem_filter.mp hi).2
    unfold specN
    rw [hic]
  rw [Finset.sum_congr rfl hconst, Finset.sum_const, nsmul_eq_mul]
  have : ((((Finset.range msa.getNseq).filter
      (fun j => msa.getSymbol j x = c)).card : ℕ) : F) ≠ 0 := by
    exact_mod_cast (Nat.pos_iff_ne_zero.mp hcard)
  field_simp

/-- The Henikoff weights of an alignment add up to one. -/
theorem sum_specWeight (msa : Msa) (hL : 1 ≤ msa.getNcol) (hN : 1 ≤ msa.getNseq)
    (hk : ∀ x, x < msa.getNcol → msa.getNtype x = distinctCount msa x) :
    ∑ i in Finset.range msa.getNseq, (specWeight msa i : F) = 1 := by
  unfold specWeight
  rw [← Finset.mul_sum, Finset.sum_comm]
  have hcol : ∀ x ∈ Finset.range msa.getNcol,
      ∑ i in Finset.range msa.getNseq,
        1 / ((msa.getNtype x : F) * (specN msa x i : F)) = 1 := by
    intro x hx
    have hkx : (msa.getNtype x : F) ≠ 0 := by
      have := distinctCount_pos msa x hN
      rw [hk x (Finset.mem_range.mp hx)]
      exact_mod_cast (Nat.pos_iff_ne_zero.mp this)
    have : ∀ i ∈ Finset.range msa.getNseq,
        1 / ((msa.getNtype x : F) * (specN msa x i : F)) =
          (1 / (msa.getNtype x : F)) * (1 / (specN msa x i : F)) := by
      intro i _
      rw [one_div_mul_one_div]
    rw [Finset.sum_congr rfl this, ← Finset.mul_sum, sum_inv_specN,
      ← hk x (Finset.mem_range.mp hx)]
    field_simp
  rw [Finset.sum_congr rfl hcol]
  have hLF : (msa.getNcol : F) ≠ 0 := by exact_mod_cast (Nat.pos_iff_ne_zero.mp hL)
  simp
  field_simp

end WeightBounds

/-! ## Entropy of a finite distribution -/

section Entropy

open Real

theorem le_one_of_sum_eq_one (s : Finset ℕ) (P : ℕ → ℝ) (h0 : ∀ a ∈ s, 0 ≤ P a)
    (h1 : ∑ a in s, P a = 1) (a : ℕ) (ha : a ∈ s) : P a ≤ 1 := by
  rw [← h1]
  exact Finset.single_le_sum h0 ha

theorem entropy_nonneg (s : Finset ℕ) (P : ℕ → ℝ) (h0 : ∀ a ∈ s, 0 ≤ P a)
    (h1 : ∑ a in s, P a = 1) : 0 ≤ ∑ a in s, negMulLog (P a) :=
  Finset.sum_nonneg (fun a ha =>
    negMulLog_nonneg (h0 a ha) (le_one_of_sum_eq_one s P h0 h1 a ha))

theorem entropy_eq_zero_iff (s : Finset ℕ) (P : ℕ → ℝ) (h0 : ∀ a ∈ s, 0 ≤ P a)
    (h1 : ∑ a in s, P a = 1) :
    ∑ a in s, negMulLog (P a) = 0 ↔ ∃ a, a ∈ s ∧ P a = 1 := by
  constructor
  · intro h
    have hz := (Finset.sum_eq_zero_iff_of_nonneg (fun a ha =>
      negMulLog_nonneg (h0 a ha) (le_one_of_sum_eq_one s P h0 h1 a ha))).mp h
    by_contra hne
    have hall : ∀ a ∈ s, P a = 0 := by
      intro a ha
      have h2 := hz a ha
      simp only [negMulLog, neg_mul, neg_eq_zero, mul_eq_zero, log_eq_zero] at h2
      rcases h2 with h2 | h2 | h2 | h2
      · exact h2
      · exact h2
      · exact absurd ⟨a, ha, h2⟩ hne
      · have := h0 a ha
        linarith
    rw [Finset.sum_eq_zero hall] at h1
    exact zero_ne_one h1
  · rintro ⟨a, ha, hPa⟩
    apply Finset.sum_eq_zero
    intro b hb
    by_cases hab : b = a
    · rw [hab, hPa]; exact negMulLog_one
    · have hsplit := Finset.add_sum_erase s P ha
      rw [h1, hPa] at hsplit
      have hrest : ∑ c in s.erase a, P c = 0 := by linarith
      have hb0 := (Finset.sum_eq_zero_iff_of_nonneg
        (fun c hc => h0 c (Finset.mem_of_mem_erase hc))).mp hrest b
        (Finset.mem_erase.mpr ⟨hab, hb⟩)
      rw [hb0]; exact negMulLog_zero

theorem mass_one_unique (s : Finset ℕ) (P : ℕ → ℝ) (h0 : ∀ a ∈ s, 0 ≤ P a)
    (h1 : ∑ a in s, P a = 1) (a b : ℕ) (ha : a ∈ s) (hb : b ∈ s) (hPa : P a = 1)
    (hPb : P b = 1) : a = b := by
  by_contra hab
  have hsub : ({a, b} : Finset ℕ) ⊆ s := by
    intro c hc
    rcases Finset.mem_insert.mp hc with h | h
    · rw [h]; exact ha
    · rw [Finset.mem_singleton.mp h]; exact hb
  have hle := Finset.sum_le_sum_of_subset_of_nonneg hsub (fun c hc _ => h0 c hc)
  rw [Finset.sum_pair hab, hPa, hPb, h1] at hle
  linarith

theorem entropy_le_log_card (s : Finset ℕ) (P : ℕ → ℝ) (h0 : ∀ a ∈ s, 0 ≤ P a)
    (h1 : ∑ a in s, P a = 1) :
    ∑ a in s, negMulLog (P a) ≤ log ((s.filter (fun a => P a ≠ 0)).card : ℝ) := by
  have hPt : ∑ a in s.filter (fun a => P a ≠ 0), P a = 1 := by
    rw [Finset.sum_filter_ne_zero]; exact h1
  have hHt : ∑ a in s.filter (fun a => P a ≠ 0), negMulLog (P a) =
      ∑ a in s, negMulLog (P a) := by
    rw [Finset.sum_filter]
    apply Finset.sum_congr rfl
    intro a _
    by_cases h : P a = 0
    · simp [h]
    · simp [h]
  have hne : (s.filter (fun a => P a ≠ 0)).Nonempty := by
    by_contra hcon
    rw [Finset.not_nonempty_iff_eq_empty] at hcon
    rw [hcon, Finset.sum_empty] at hPt
    exact zero_ne_one hPt
  have hm : (0 : ℝ) < ((s.filter (fun a => P a ≠ 0)).card : ℝ) := by
    exact_mod_cast Finset.card_pos.mpr hne
  have hterm : ∀ a ∈ s.filter (fun a => P a ≠ 0),
      negMulLog (P a) - P a * log ((s.filter (fun a => P a ≠ 0)).card : ℝ) ≤
        1 / ((s.filter (fun a => P a ≠ 0)).card : ℝ) - P a := by
    intro a ha
    obtain ⟨has, hPa⟩ := Finset.mem_filter.mp ha
    have hpos : 0 < P a := lt_of_le_of_ne (h0 a has) (Ne.symm hPa)
    have hprod : 0 < ((s.filter (fun a => P a ≠ 0)).card : ℝ) * P a := mul_pos hm hpos
    have hlog := log_le_sub_one_of_pos (inv_pos.mpr hprod)
    rw [log_inv, log_mul (ne_of_gt hm) (ne_of_gt hpos)] at hlog
    have hmul := mul_le_mul_of_nonneg_left hlog (le_of_lt hpos)
    have hinv : P a * ((((s.filter (fun a => P a ≠ 0)).card : ℝ) * P a)⁻¹ - 1) =
        1 / ((s.filter (fun a => P a ≠ 0)).card : ℝ) - P a := by
      field_simp
      ring
    rw [hinv] at hmul
    simp only [negMulLog]
    linarith
  have hsum := Finset.sum_le_sum hterm
  rw [Finset.sum_sub_distrib, Finset.sum_sub_distrib, ← Finset.sum_mul, hPt, hHt,
    Finset.sum_const, nsmul_eq_mul] at hsum
  have hcancel : ((s.filter (fun a => P a ≠ 0)).card : ℝ) *
      (1 / ((s.filter (fun a => P a ≠ 0)).card : ℝ)) = 1 := by
    field_simp
  rw [hcancel] at hsum
  linarith

end Entropy

/-! ## Probability mass per alphabet symbol -/

section Alphabet

theorem exists_alphabet_index (l : List Char) (c d : Char) (h : c ∈ l) :
    ∃ a, a < l.length ∧ l.getD a d = c := by
  obtain ⟨n, hn, hc⟩ := List.getElem_of_mem h
  refine ⟨n, hn, ?_⟩
  rw [List.getD_eq_getElem _ _ hn]
  exact hc

theorem alphabet_index_unique (l : List Char) (d : Char) (hnd : l.Nodup) (a b : Nat)
    (ha : a < l.length) (hb : b < l.length) (h : l.getD a d = l.getD b d) : a = b := by
  rw [List.getD_eq_getElem _ _ ha, List.getD_eq_getElem _ _ hb] at h
  exact (hnd.getElem_inj_iff).mp h

variable {F : Type} [Field F]

/-- Each row adds its weight to exactly one accumulator of the column. -/
theorem sum_specP (msa : Msa) (w : Nat → F) (x : Nat) (hnd : msa.getAlphabet.Nodup)
    (hmem : ∀ j, j < msa.getNseq → msa.getSymbol j x ∈ msa.getAlphabet) :
    ∑ a in Finset.range msa.getAlphabet.length, specP msa w x a =
      ∑ j in Finset.range msa.getNseq, w j := by
  unfold specP
  simp only [Finset.sum_filter]
  rw [Finset.sum_comm]
  apply Finset.sum_congr rfl
  intro j hj
  obtain ⟨a0, ha0, hget⟩ := exists_alphabet_index msa.getAlphabet (msa.getSymbol j x)
    (Char.ofNat 0) (hmem j (Finset.mem_range.mp hj))
  rw [Finset.sum_eq_single a0]
  · rw [if_pos hget.symm]
  · intro b hb hba
    rw [if_neg]
    intro hcon
    apply hba
    exact alphabet_index_unique msa.getAlphabet (Char.ofNat 0) hnd b a0
      (Finset.mem_range.mp hb) ha0 (by rw [hget, hcon])
  · intro hcon
    exact absurd (Finset.mem_range.mpr ha0) hcon

theorem specP_ne_zero_exists (msa : Msa) (w : Nat → F) (x a : Nat)
    (h : specP msa w x a ≠ 0) :
    ∃ j, j < msa.getNseq ∧ msa.getSymbol j x = msa.getAlphabet.getD a (Char.ofNat 0) := by
  by_contra hcon
  apply h
  unfold specP
  apply Finset.sum_eq_zero
  intro j hj
  obtain ⟨hj1, hj2⟩ := Finset.mem_filter.mp hj
  exact absurd ⟨j, Finset.mem_range.mp hj1, hj2⟩ hcon

/-- The symbols that receive weight in a column are at most `min(K, N)`. -/
theorem card_support_le [DecidableEq F] (msa : Msa) (w : Nat → F) (x : Nat)
    (hnd : msa.getAlphabet.Nodup) :
    ((Finset.range msa.getAlphabet.length).filter (fun a => specP msa w x a ≠ 0)).card ≤
      min msa.getAlphabet.length msa.getNseq := by
  apply Nat.le_min.mpr
  constructor
  · calc ((Finset.range msa.getAlphabet.length).filter (fun a => specP msa w x a ≠ 0)).card
        ≤ (Finset.range msa.getAlphabet.length).card := Finset.card_filter_le _ _
      _ = msa.getAlphabet.length := Finset.card_range _
  · calc ((Finset.range msa.getAlphabet.length).filter (fun a => specP msa w x a ≠ 0)).card
        ≤ ((Finset.range msa.getNseq).image (fun j => msa.getSymbol j x)).card := by
          apply Finset.card_le_card_of_injOn (fun a => msa.getAlphabet.getD a (Char.ofNat 0))
          · intro a ha
            obtain ⟨_, hne⟩ := Finset.mem_filter.mp ha
            obtain ⟨j, hj, hsym⟩ := specP_ne_zero_exists msa w x a hne
            exact Finset.mem_image.mpr ⟨j, Finset.mem_range.mpr hj, hsym⟩
          · intro a ha b hb hab
            have ha1 := Finset.mem_range.mp (Finset.mem_filter.mp ha).1
            have hb1 := Finset.mem_range.mp (Finset.mem_filter.mp hb).1
            exact alphabet_index_unique msa.getAlphabet (Char.ofNat 0) hnd a b ha1 hb1 hab
      _ ≤ (Finset.range msa.getNseq).card := Finset.card_image_le
      _ = msa.getNseq := Finset.card_range _

end Alphabet

section Nonneg
variable {F : Type} [LinearOrderedField F]

theorem specP_nonneg (msa : Msa) (w : Nat → F) (x a : Nat)
    (hw : ∀ j, j < msa.getNseq → 0 ≤ w j) : 0 ≤ specP msa w x a := by
  unfold specP
  apply Finset.sum_nonneg
  intro j hj
  exact hw j (Finset.mem_range.mp (Finset.mem_filter.mp hj).1)

end Nonneg

/-! ## The whole run -/

section Fresh
variable {F : Type} [Field F] [DecidableEq F]

/-- The run of a fresh object: the weights are those of `calcSeqWeight` and every column
score is `lambda` times the entropy sum of the column. -/
theorem calculateStatistic_fresh (log : F → F) (env : Env) (opts : Options) (msa : Msa)
    (h1 : env.calloc msa.getNcol sizeofPtr = true)
    (h2 : env.calloc msa.getAlphabet.length sizeofFloat = true) (h3 : env.is_open = true) :
    ∃ st out, WEntStat.calculateStatistic log env opts msa WEntStat.fresh = some (st, out) ∧
      st.w = (List.range msa.getNseq).map (fun i => WEntStat.calcSeqWeight msa i) ∧
      st.col_cons.length = msa.getNcol ∧
      (∀ x, x < msa.getNcol → st.col_cons.getD x 0 =
        (1 / log ((min msa.getAlphabet.length msa.getNseq : Nat) : F)) *
          specEntropy log msa (fun j => WEntStat.calcSeqWeight msa j) x) ∧
      (∀ x a, x < msa.getNcol → a < msa.getAlphabet.length → (st.p.getD x []).getD a 0 =
        specP msa (fun j => WEntStat.calcSeqWeight msa j) x a) ∧
      out.file = writeScores opts msa.getNcol st.col_cons := by
  obtain ⟨st, out, hrun, _, _, hw, hlen, hcc, hp, _, hfile⟩ :=
    calculateStatistic_run log env opts msa WEntStat.fresh h1 h2 h3
  have hw2 : st.w = (List.range msa.getNseq).map (fun i => WEntStat.calcSeqWeight msa i) := by
    rw [hw]; simp [WEntStat.fresh]
  have hget : ∀ j, j < msa.getNseq → st.w.getD j 0 = WEntStat.calcSeqWeight msa j := by
    intro j hj
    rw [hw2]
    simp [List.getD_eq_getElem?_getD, hj]
  refine ⟨st, out, hrun, hw2, ?_, fun x hx => ?_, fun x a hx ha => ?_, hfile⟩
  · rw [hlen]; simp [WEntStat.fresh]
  rotate_left
  · have := hp x a
    rw [if_pos ⟨hx, ha⟩] at this
    rw [← specP_congr msa _ _ hget x a, ← this]
    rfl
  · rw [hcc x, if_pos hx, specEntropy_eq_sum]
    have hterm : ∀ a ∈ Finset.range msa.getAlphabet.length,
        specTerm log msa (fun j => st.w.getD j 0) x a =
          specTerm log msa (fun j => WEntStat.calcSeqWeight msa j) x a :=
      fun a _ => specTerm_congr log msa _ _ hget x a
    rw [Finset.sum_congr rfl hterm]
    simp only [WEntStat.fresh, List.getD_nil]
    ring

end Fresh

theorem specEntropy_eq_negMulLog (msa : Msa) (w : Nat → ℝ) (x : Nat) :
    specEntropy Real.log msa w x =
      ∑ a in Finset.range msa.getAlphabet.length, Real.negMulLog (specP msa w x a) := by
  rw [specEntropy_eq_sum, ← Finset.sum_neg_distrib]
  apply Finset.sum_congr rfl
  intro a _
  unfold specTerm
  by_cases h : specP msa w x a = 0
  · simp [h]
  · simp [h, Real.negMulLog]

section Distribution

/-- Under the alignment invariants the accumulated masses of a column form a
probability distribution over the alphabet. -/
theorem specP_distribution (msa : Msa) (x : Nat) (hN : 1 ≤ msa.getNseq)
    (hL : 1 ≤ msa.getNcol)
    (hk : ∀ x, x < msa.getNcol → msa.getNtype x = distinctCount msa x)
    (hnd : msa.getAlphabet.Nodup)
    (hmem : ∀ j, j < msa.getNseq → msa.getSymbol j x ∈ msa.getAlphabet) :
    (∀ a, 0 ≤ specP msa (fun j => (WEntStat.calcSeqWeight msa j : ℝ)) x a) ∧
    ∑ a in Finset.range msa.getAlphabet.length,
      specP msa (fun j => (WEntStat.calcSeqWeight msa j : ℝ)) x a = 1 := by
  constructor
  · intro a
    apply specP_nonneg
    intro j hj
    rw [calcSeqWeight_eq_specWeight]
    exact le_of_lt (specWeight_pos_le_one msa j hN hL hj hk).1
  · rw [sum_specP msa _ x hnd hmem]
    simp only [calcSeqWeight_eq_specWeight]
    exact sum_specWeight msa hL hN hk

theorem log_min_pos (K N : Nat) (h : 2 ≤ min K N) : 0 < Real.log ((min K N : Nat) : ℝ) := by
  apply Real.log_pos
  have : (2 : ℝ) ≤ ((min K N : Nat) : ℝ) := by exact_mod_cast h
  linarith

end Distribution

/-! ## Identical rows and pairwise distinct rows -/

section Scenarios
variable {F : Type} [Field F] [CharZero F]

theorem weight_of_constant_counts (msa : Msa) (i k n : Nat) (hL : 1 ≤ msa.getNcol)
    (hk : ∀ x, x < msa.getNcol → msa.getNtype x = k)
    (hn : ∀ x, x < msa.getNcol → specN msa x i = n) :
    (specWeight msa i : F) = 1 / ((k : F) * (n : F)) := by
  unfold specWeight
  have hterm : ∀ x ∈ Finset.range msa.getNcol,
      1 / ((msa.getNtype x : F) * (specN msa x i : F)) = 1 / ((k : F) * (n : F)) := by
    intro x hx
    rw [hk x (Finset.mem_range.mp hx), hn x (Finset.mem_range.mp hx)]
  rw [Finset.sum_congr rfl hterm, Finset.sum_const, Finset.card_range, nsmul_eq_mul]
  have hLF : (msa.getNcol : F) ≠ 0 := by exact_mod_cast Nat.pos_iff_ne_zero.mp hL
  field_simp

theorem distinctCount_distinct (msa : Msa) (x : Nat)
    (hdist : ∀ i, i < msa.getNseq → ∀ j, j < msa.getNseq →
      msa.getSymbol i x = msa.getSymbol j x → i = j) :
    distinctCount msa x = msa.getNseq := by
  unfold distinctCount
  rw [Finset.card_image_of_injOn, Finset.card_range]
  intro i hi j hj h
  exact hdist i (Finset.mem_range.mp hi) j (Finset.mem_range.mp hj) h

theorem specN_distinct (msa : Msa) (x i : Nat) (hi : i < msa.getNseq)
    (hdist : ∀ j, j < msa.getNseq → msa.getSymbol j x = msa.getSymbol i x → j = i) :
    specN msa x i = 1 := by
  unfold specN
  rw [Finset.card_eq_one]
  refine ⟨i, ?_⟩
  ext j
  simp only [Finset.mem_filter, Finset.mem_range, Finset.mem_singleton]
  constructor
  · rintro ⟨hj, h⟩
    exact hdist j hj h
  · rintro rfl
    exact ⟨hi, rfl⟩

end Scenarios

section Scenarios2

variable {F : Type} [Field F]

/-- With pairwise distinct rows and weights `1/N`, every accumulated mass is `0` or
`1/N`. -/
theorem specP_distinct (msa : Msa) (x a : Nat) (w : Nat → F)
    (hw : ∀ j, j < msa.getNseq → w j = 1 / (msa.getNseq : F))
    (hdist : ∀ i, i < msa.getNseq → ∀ j, j < msa.getNseq →
      msa.getSymbol i x = msa.getSymbol j x → i = j) :
    specP msa w x a = 0 ∨ specP msa w x a = 1 / (msa.getNseq : F) := by
  unfold specP
  by_cases h : ∃ j, j < msa.getNseq ∧
      msa.getSymbol j x = msa.getAlphabet.getD a (Char.ofNat 0)
  · obtain ⟨j0, hj0, hsym⟩ := h
    right
    have hfilter : (Finset.range msa.getNseq).filter
        (fun j => msa.getSymbol j x = msa.getAlphabet.getD a (Char.ofNat 0)) = {j0} := by
      ext j
      simp only [Finset.mem_filter, Finset.mem_range, Finset.mem_singleton]
      constructor
      · rintro ⟨hj, h⟩
        exact hdist j hj j0 hj0 (h.trans hsym.symm)
      · rintro rfl
        exact ⟨hj0, hsym⟩
    rw [hfilter, Finset.sum_singleton, hw j0 hj0]
  · left
    apply Finset.sum_eq_zero
    intro j hj
    obtain ⟨hj1, hj2⟩ := Finset.mem_filter.mp hj
    exact absurd ⟨j, Finset.mem_range.mp hj1, hj2⟩ h

end Scenarios2

section Reuse
variable {F : Type} [Field F] [DecidableEq F]

/-- The run on an object that already holds the weights of the alignment (as after a
previous call): `col_cons.push_back(0.0)` appends behind the old scores, and the update of
`col_cons[x]` starts from the old score of column `x`. -/
theorem calculateStatistic_reuse (log : F → F) (env : Env) (opts : Options) (msa : Msa)
    (self : WEntStat F) (hlen : msa.getNseq ≤ self.w.length)
    (hself : ∀ j, j < msa.getNseq → self.w.getD j 0 = WEntStat.calcSeqWeight msa j)
    (h1 : env.calloc msa.getNcol sizeofPtr = true)
    (h2 : env.calloc msa.getAlphabet.length sizeofFloat = true) (h3 : env.is_open = true) :
    ∃ st out, WEntStat.calculateStatistic log env opts msa self = some (st, out) ∧
      st.col_cons.length = self.col_cons.length + msa.getNcol ∧
      (∀ x, x < msa.getNcol → st.col_cons.getD x 0 =
        (self.col_cons.getD x 0 +
          specEntropy log msa (fun j => WEntStat.calcSeqWeight msa j) x) *
          (1 / log ((min msa.getAlphabet.length msa.getNseq : Nat) : F))) ∧
      out.file = writeScores opts msa.getNcol st.col_cons := by
  obtain ⟨st, out, hrun, _, _, hw, hl, hcc, _, _, hfile⟩ :=
    calculateStatistic_run log env opts msa self h1 h2 h3
  have hget : ∀ j, j < msa.getNseq → st.w.getD j 0 = WEntStat.calcSeqWeight msa j := by
    intro j hj
    rw [hw, ← hself j hj]
    have hj2 : j < self.w.length := lt_of_lt_of_le hj hlen
    simp [List.getD_eq_getElem?_getD, List.getElem?_append_left hj2]
  refine ⟨st, out, hrun, hl, fun x hx => ?_, hfile⟩
  rw [hcc x, if_pos hx, specEntropy_eq_sum]
  have hterm : ∀ a ∈ Finset.range msa.getAlphabet.length,
      specTerm log msa (fun j => st.w.getD j 0) x a =
        specTerm log msa (fun j => WEntStat.calcSeqWeight msa j) x a :=
    fun a _ => specTerm_congr log msa _ _ hget x a
  rw [Finset.sum_congr rfl hterm]
  ring

end Reuse

section Printing
variable {F : Type} [Field F]

theorem forLoop_total (n : Nat) (l : List F) :
    forLoop n (fun col total => total + l.getD col 0) 0 =
      ((List.range n).map (fun x => l.getD x 0)).sum := by
  induction n with
  | zero => simp [forLoop_zero]
  | succ m ih => rw [forLoop_succ, ih, List.range_succ, List.map_append, List.sum_append]; simp

theorem map_getD_range (l : List F) :
    (List.range l.length).map (fun x => l.getD x 0) = l := by
  apply List.ext_getElem
  · simp
  · intro i h1 h2
    simp [List.getD_eq_getElem?_getD, h2]

theorem writeScores_global (v : Bool) (ncol : Nat) (cc : List F) :
    writeScores (Options.mk v true) ncol cc =
      [((List.range ncol).map (fun x => cc.getD x 0)).sum / (ncol : F)] := by
  simp only [writeScores, if_true, forLoop_total]

theorem printStatistic_global (env : Env) (v : Bool) (col_stat : List F)
    (h : env.is_open = true) :
    Stat1D.printStatistic env (Options.mk v true) col_stat =
      some [col_stat.sum / (col_stat.length : F)] := by
  simp only [Stat1D.printStatistic, h, if_true, forLoop_total, map_getD_range]

theorem printStatistic_perColumn (env : Env) (v : Bool) (col_stat : List F)
    (h : env.is_open = true) :
    Stat1D.printStatistic env (Options.mk v false) col_stat = some col_stat := by
  simp only [Stat1D.printStatistic, h, if_true, Bool.false_eq_true, if_false]
  rw [forLoop_push, List.nil_append, map_getD_range]

end Printing

section DistinctRows

theorem weight_of_distinct_rows (msa : Msa) (hL : 1 ≤ msa.getNcol)
    (hdist : ∀ x, x < msa.getNcol → ∀ i, i < msa.getNseq → ∀ j, j < msa.getNseq →
      msa.getSymbol i x = msa.getSymbol j x → i = j)
    (hk : ∀ x, x < msa.getNcol → msa.getNtype x = distinctCount msa x)
    (i : Nat) (hi : i < msa.getNseq) :
    (WEntStat.calcSeqWeight msa i : ℝ) = 1 / (msa.getNseq : ℝ) := by
  rw [calcSeqWeight_eq_specWeight,
    weight_of_constant_counts msa i msa.getNseq 1 hL
      (fun x hx => by rw [hk x hx]; exact distinctCount_distinct msa x (hdist x hx))
      (fun x hx => specN_distinct msa x i hi (fun j hj h => hdist x hx j hj i hi h))]
  simp

theorem entropy_of_distinct_rows (msa : Msa) (hN : 1 ≤ msa.getNseq) (hL : 1 ≤ msa.getNcol)
    (hdist : ∀ x, x < msa.getNcol → ∀ i, i < msa.getNseq → ∀ j, j < msa.getNseq →
      msa.getSymbol i x = msa.getSymbol j x → i = j)
    (hnd : msa.getAlphabet.Nodup)
    (hmem : ∀ j, j < msa.getNseq → ∀ x, x < msa.getNcol →
      msa.getSymbol j x ∈ msa.getAlphabet)
    (hk : ∀ x, x < msa.getNcol → msa.getNtype x = distinctCount msa x)
    (x : Nat) (hx : x < msa.getNcol) :
    specEntropy Real.log msa (fun j => (WEntStat.calcSeqWeight msa j : ℝ)) x =
      Real.log (msa.getNseq : ℝ) := by
  have hNF : (0 : ℝ) < (msa.getNseq : ℝ) := by exact_mod_cast hN
  have hW := weight_of_distinct_rows msa hL hdist hk
  rw [specEntropy_eq_negMulLog]
  have hterm : ∀ a ∈ Finset.range msa.getAlphabet.length,
      Real.negMulLog (specP msa (fun j => (WEntStat.calcSeqWeight msa j : ℝ)) x a) =
        specP msa (fun j => (WEntStat.calcSeqWeight msa j : ℝ)) x a *
          Real.log (msa.getNseq : ℝ) := by
    intro a _
    rcases specP_distinct msa x a _ hW (hdist x hx) with h | h
    · rw [h]; simp
    · rw [h, Real.negMulLog, one_div, Real.log_inv]; ring
  have hsum : ∑ a in Finset.range msa.getAlphabet.length,
      specP msa (fun j => (WEntStat.calcSeqWeight msa j : ℝ)) x a = 1 := by
    rw [sum_specP msa _ x hnd (fun j hj => hmem j hj x hx),
      Finset.sum_congr rfl (fun j hj => hW j (Finset.mem_range.mp hj)), Finset.sum_const,
      Finset.card_range, nsmul_eq_mul]
    field_simp
  rw [Finset.sum_congr rfl hterm, ← Finset.sum_mul, hsum, one_mul]

end DistinctRows

/-! ## Exit paths, sums and the trident scores -/

section AllocFailure
variable {F : Type} [Field F]

/-- Once a row allocation fails the loop of wentropy.cpp:104-110 has exited. -/
theorem allocRows_fail (env : Env) (K : Nat) (h : env.calloc K sizeofFloat = false)
    (n : Nat) (r : Option (List (List F))) :
    forLoop (n + 1) (fun i (r : Option (List (List F))) =>
      r.bind (fun p =>
        if env.calloc K sizeofFloat then some (p.set i (List.replicate K 0)) else none)) r =
      none := by
  rw [forLoop_succ]
  cases forLoop n (fun i (r : Option (List (List F))) =>
      r.bind (fun p =>
        if env.calloc K sizeofFloat then some (p.set i (List.replicate K 0)) else none)) r with
  | none => rfl
  | some p => simp [h]

/-- The allocation of the probability matrix exits exactly when `calloc` returns a null
pointer for the matrix, or for a row when there is at least one row. -/
theorem allocProba_eq_none_iff (env : Env) (ncol K : Nat) :
    (allocProba env ncol K : Option (List (List F))) = none ↔
      env.calloc ncol sizeofPtr = false ∨
        (1 ≤ ncol ∧ env.calloc K sizeofFloat = false) := by
  cases h1 : env.calloc ncol sizeofPtr with
  | false => simp [allocProba, h1]
  | true =>
    cases h2 : env.calloc K sizeofFloat with
    | true =>
      obtain ⟨p, hp, _⟩ := allocProba_ok (F := F) env ncol K h1 h2
      simp [hp]
    | false =>
      cases ncol with
      | zero => simp [allocProba, h1, forLoop_zero]
      | succ n =>
        have := allocRows_fail (F := F) env K h2 n (some (List.replicate (n + 1) []))
        simp [allocProba, h1, this]

end AllocFailure

section ExitPaths
variable {F : Type} [Field F] [DecidableEq F]

/-- The process exits in `calculateStatistic` exactly on a failed allocation or a file that
cannot be opened. -/
theorem calculateStatistic_eq_none_iff (log : F → F) (env : Env) (opts : Options) (msa : Msa)
    (self : WEntStat F) :
    WEntStat.calculateStatistic log env opts msa self = none ↔
      env.calloc msa.getNcol sizeofPtr = false ∨
        (1 ≤ msa.getNcol ∧ env.calloc msa.getAlphabet.length sizeofFloat = false) ∨
        env.is_open = false := by
  rw [← or_assoc, ← allocProba_eq_none_iff (F := F)]
  unfold WEntStat.calculateStatistic
  cases hp : (allocProba env msa.getNcol msa.getAlphabet.length : Option (List (List F))) with
  | none => simp [hp]
  | some p =>
    cases h3 : env.is_open with
    | true => simp [hp, h3]
    | false => simp [hp, h3]

end ExitPaths

section SumLemmas

theorem list_sum_map_range {F : Type} [AddCommMonoid F] (n : Nat) (f : Nat → F) :
    ((List.range n).map f).sum = ∑ i in Finset.range n, f i := by
  induction n with
  | zero => simp
  | succ m ih =>
    rw [List.range_succ, List.map_append, List.sum_append, ih, Finset.sum_range_succ]
    simp

theorem writeScores_verbose {F : Type} [Field F] (v g : Bool) (ncol : Nat) (cc : List F) :
    writeScores (Options.mk v g) ncol cc = writeScores (Options.mk false g) ncol cc := rfl

theorem conservation_col_cons {F : Type} [Field F] (pow : F → F → F) (a b c : F)
    (self : TridStat F) :
    (TridStat.conservation pow a b c self).col_cons =
      (List.range self.ncol).map (fun x =>
        pow (1 - self.t.getD x 0) a * pow (1 - self.r.getD x 0) b *
          pow (1 - self.g.getD x 0) c) := by
  unfold TridStat.conservation
  simp only [forLoop_push, List.nil_append]

end SumLemmas

/-! ## Binary32 arithmetic: the library logarithms and Scenario B -/

/-- The exact logarithm of `1 + 2^-23` lies strictly between the adjacent `float` values
`(2^24 - 1) * 2^-47` and `2^-23`. -/
theorem log_near_one_bracket :
    Fp.toRat (Fp.fin 8388609 (-23)) = 1 + 1 / 2 ^ 23 ∧
    ((Fp.toRat (Fp.fin 16777215 (-47)) : ℚ) : ℝ) < Real.log (1 + 1 / 2 ^ 23) ∧
    Real.log (1 + 1 / 2 ^ 23) < ((Fp.toRat (Fp.fin 8388608 (-46)) : ℚ) : ℝ) := by
  refine ⟨by norm_num [Fp.toRat], ?_, ?_⟩
  · have h := Real.abs_log_sub_add_sum_range_le (x := -(1 / 2 ^ 23)) (by
      rw [abs_neg, abs_of_pos (by positivity)]; norm_num) 3
    rw [abs_neg, abs_of_pos (by positivity : (0 : ℝ) < 1 / 2 ^ 23)] at h
    have h2 := (abs_le.mp h).1
    simp only [Finset.sum_range_succ, Finset.sum_range_zero, sub_neg_eq_add] at h2
    norm_num [Fp.toRat] at h2 ⊢
    linarith
  · have h := Real.log_lt_sub_one_of_pos (x := 1 + 1 / 2 ^ 23) (by positivity) (by norm_num)
    norm_num [Fp.toRat] at h ⊢
    linarith

/-- The exact logarithm of `4` lies strictly between the adjacent `double` values
`6243314768165359 * 2^-52` and `6243314768165360 * 2^-52`. -/
theorem log_four_bracket :
    ((Fp.toRat (Fp.fin 6243314768165359 (-52)) : ℚ) : ℝ) < Real.log 4 ∧
    Real.log 4 < ((Fp.toRat (Fp.fin 6243314768165360 (-52)) : ℚ) : ℝ) := by
  have h := Real.abs_log_sub_add_sum_range_le (x := 1 / 2) (by
    rw [abs_of_pos (by positivity)]; norm_num) 58
  rw [abs_of_pos (by positivity : (0 : ℝ) < 1 / 2)] at h
  have h4 : Real.log 4 = 2 * Real.log 2 := by
    rw [show (4 : ℝ) = 2 ^ 2 by norm_num, Real.log_pow]; norm_num
  have h12 : Real.log (1 - 1 / 2) = - Real.log 2 := by
    rw [show (1 : ℝ) - 1 / 2 = 2⁻¹ by norm_num, Real.log_inv]
  rw [h12] at h
  obtain ⟨hlo, hhi⟩ := abs_le.mp h
  simp only [Finset.sum_range_succ, Finset.sum_range_zero] at hlo hhi
  norm_num [Fp.toRat] at hlo hhi ⊢
  constructor <;> linarith

/-- On Scenario B the binary32 run stores the weights `0.5`, the masses `0.5` and the
score `1` when `logf(0.5f)` and `log(2.0)` return the machine numbers nearest to `-ln 2`
and `ln 2`. -/
theorem scenarioB_binary32 :
    (Binary32.calculateStatistic
        (F32.logAt ⟨Fp.fin 8388608 (-24)⟩ ⟨Fp.fin (-11629080) (-24)⟩)
        (F64.logAt ((2 : Nat) : F64) ⟨Fp.fin 6243314768165359 (-53)⟩) envOk optsPerColumn
        msaB WEntStat.fresh).map (fun r => (r.1.w, r.1.p, r.1.col_cons, r.2.file)) =
      some ([⟨Fp.fin 8388608 (-24)⟩, ⟨Fp.fin 8388608 (-24)⟩],
        [[⟨Fp.fin 8388608 (-24)⟩, ⟨Fp.fin 8388608 (-24)⟩]], [1], [1]) := by
  decide!

/-! ## The claims -/

/-- C1: for an alignment with `L ≥ 1` columns and a row index `i < N`,
`calcSeqWeight(msa, i)` equals `(1/L) * Σ_{x<L} 1 / (k_x * n_{x,i})`, with
`k_x = getNtype(x)` and `n_{x,i}` the number of rows whose symbol in column `x` equals
that of row `i`; row `i` counts itself, so neither `L` nor any `n_{x,i}` is a zero
divisor. -/
theorem calcSeqWeight_formula {F : Type} [Field F] [CharZero F] (msa : Msa) (i : Nat)
    (hL : 1 ≤ msa.getNcol) (hi : i < msa.getNseq) :
    (WEntStat.calcSeqWeight msa i : F) =
      (1 / (msa.getNcol : F)) * ∑ x in Finset.range msa.getNcol,
        1 / ((msa.getNtype x : F) *
          (((Finset.range msa.getNseq).filter
            (fun seq => msa.getSymbol seq x = msa.getSymbol i x)).card : F)) ∧
    (msa.getNcol : F) ≠ 0 ∧
    ∀ x, (((Finset.range msa.getNseq).filter
      (fun seq => msa.getSymbol seq x = msa.getSymbol i x)).card : F) ≠ 0 := by
  refine ⟨calcSeqWeight_eq_specWeight msa i, ?_, fun x => ?_⟩
  · exact_mod_cast Nat.pos_iff_ne_zero.mp hL
  · exact_mod_cast Nat.pos_iff_ne_zero.mp (specN_pos msa x i hi)

/-- Witness of C1 on Scenario B, row 0. -/
theorem calcSeqWeight_formula_witness :
    (1 ≤ msaB.getNcol ∧ 0 < msaB.getNseq) ∧
    (WEntStat.calcSeqWeight msaB 0 : ℚ) =
      (1 / (msaB.getNcol : ℚ)) * ∑ x in Finset.range msaB.getNcol,
        1 / ((msaB.getNtype x : ℚ) *
          (((Finset.range msaB.getNseq).filter
            (fun seq => msaB.getSymbol seq x = msaB.getSymbol 0 x)).card : ℚ)) :=
  ⟨⟨by decide, by decide⟩, (calcSeqWeight_formula msaB 0 (by decide) (by decide)).1⟩

/-- C2: for an alignment with `N ≥ 1` rows and `L ≥ 1` columns in which `getNtype(x)` is
the number of distinct symbols of column `x`, every weight computed by `calcSeqWeight`
lies in `(0, 1]`, and a fresh `WEntStat` stores exactly these `N` weights in `w`. -/
theorem seqWeight_in_unit_interval {F : Type} [LinearOrderedField F] (log : F → F)
    (env : Env) (opts : Options) (msa : Msa)
    (hN : 1 ≤ msa.getNseq) (hL : 1 ≤ msa.getNcol)
    (hk : ∀ x, x < msa.getNcol → msa.getNtype x = distinctCount msa x)
    (h1 : env.calloc msa.getNcol sizeofPtr = true)
    (h2 : env.calloc msa.getAlphabet.length sizeofFloat = true)
    (h3 : env.is_open = true) :
    (∀ i, i < msa.getNseq →
      0 < (WEntStat.calcSeqWeight msa i : F) ∧ (WEntStat.calcSeqWeight msa i : F) ≤ 1) ∧
    ∃ st out, WEntStat.calculateStatistic log env opts msa WEntStat.fresh = some (st, out) ∧
      st.w.length = msa.getNseq ∧
      ∀ i, i < msa.getNseq → 0 < st.w.getD i 0 ∧ st.w.getD i 0 ≤ 1 := by
  have hw : ∀ i, i < msa.getNseq →
      0 < (WEntStat.calcSeqWeight msa i : F) ∧ (WEntStat.calcSeqWeight msa i : F) ≤ 1 := by
    intro i hi
    rw [calcSeqWeight_eq_specWeight]
    exact specWeight_pos_le_one msa i hN hL hi hk
  refine ⟨hw, ?_⟩
  obtain ⟨st, out, hrun, _, _, hst, _⟩ :=
    calculateStatistic_run log env opts msa WEntStat.fresh h1 h2 h3
  refine ⟨st, out, hrun, ?_, fun i hi => ?_⟩
  · rw [hst]; simp [WEntStat.fresh]
  · have : st.w.getD i 0 = WEntStat.calcSeqWeight msa i := by
      rw [hst]
      simp [WEntStat.fresh, List.getD_eq_getElem?_getD, hi]
    rw [this]
    exact hw i hi

/-- Witness of C2 on Scenario B. -/
theorem seqWeight_in_unit_interval_witness :
    (∀ i, i < msaB.getNseq →
      0 < (WEntStat.calcSeqWeight msaB i : ℚ) ∧ (WEntStat.calcSeqWeight msaB i : ℚ) ≤ 1) ∧
    ∃ st out, WEntStat.calculateStatistic (fun q : ℚ => q) envOk optsPerColumn msaB
        WEntStat.fresh = some (st, out) ∧
      st.w.length = msaB.getNseq ∧
      ∀ i, i < msaB.getNseq → 0 < st.w.getD i 0 ∧ st.w.getD i 0 ≤ 1 :=
  seqWeight_in_unit_interval (fun q : ℚ => q) envOk optsPerColumn msaB (by decide)
    (by decide) (by decide) rfl rfl rfl

/-- C3 fails on the code for `min(K, N) = 1`: for a single row `A` (one column, alphabet
`AC`) `log(1) = 0` makes `lambda = 1.0 / 0.0` infinite, the entropy sum is `0`, and the
value stored in `col_cons[0]` is `0 * inf`, a NaN, not the value of a formula. -/
theorem single_row_score_nan :
    min msaOne.getAlphabet.length msaOne.getNseq = 1 ∧
    (Binary32.calculateStatistic (F32.logAt 1 0) (F64.logAt 1 ⟨Fp.fin 0 0⟩) envOk
      optsPerColumn msaOne WEntStat.fresh).map (fun r => (r.1.w, r.1.p, r.1.col_cons)) =
        some ([1], [[1, 0]], [⟨Fp.nan⟩]) := by
  decide!

/-- C3 as amended: for a fresh `WEntStat` and an alignment with `min(K, N) ≥ 2`, when the
allocations succeed and the output file opens, `calculateStatistic` returns, stores the
weights of `calcSeqWeight` in `w` and leaves in `col_cons[x]`, for each column `x < L`,
the value `lambda * (- Σ_a p(x,a) * ln p(x,a))` with `lambda = 1 / ln(min(K, N))` (the
divisor `ln(min(K, N))` is positive), `p(x,a)` the sum of `w_j` over the rows `j`
carrying `alphabet[a]` in column `x`, and the terms with `p(x,a) = 0` skipped; nothing
else is applied to the stored value.  The arithmetic is exact real arithmetic. -/
theorem colCons_formula (env : Env) (opts : Options) (msa : Msa)
    (hmin : 2 ≤ min msa.getAlphabet.length msa.getNseq)
    (h1 : env.calloc msa.getNcol sizeofPtr = true)
    (h2 : env.calloc msa.getAlphabet.length sizeofFloat = true)
    (h3 : env.is_open = true) :
    ∃ st out, WEntStat.calculateStatistic Real.log env opts msa WEntStat.fresh =
        some (st, out) ∧
      st.w.length = msa.getNseq ∧
      (∀ j, j < msa.getNseq → st.w.getD j 0 = WEntStat.calcSeqWeight msa j) ∧
      st.col_cons.length = msa.getNcol ∧
      0 < Real.log ((min msa.getAlphabet.length msa.getNseq : Nat) : ℝ) ∧
      ∀ x, x < msa.getNcol → st.col_cons.getD x 0 =
        (1 / Real.log ((min msa.getAlphabet.length msa.getNseq : Nat) : ℝ)) *
          (- ∑ a in (Finset.range msa.getAlphabet.length).filter
                (fun a => specP msa (fun j => st.w.getD j 0) x a ≠ 0),
              specP msa (fun j => st.w.getD j 0) x a *
                Real.log (specP msa (fun j => st.w.getD j 0) x a)) := by
  obtain ⟨st, out, hrun, hw, hlen, hcc, _, _⟩ :=
    calculateStatistic_fresh Real.log env opts msa h1 h2 h3
  have hget : ∀ j, j < msa.getNseq → st.w.getD j 0 = WEntStat.calcSeqWeight msa j := by
    intro j hj
    rw [hw]
    simp [List.getD_eq_getElem?_getD, hj]
  refine ⟨st, out, hrun, by rw [hw]; simp, hget, hlen, log_min_pos _ _ hmin,
    fun x hx => ?_⟩
  rw [hcc x hx]
  have hP : ∀ a, specP msa (fun j => st.w.getD j 0) x a =
      specP msa (fun j => WEntStat.calcSeqWeight msa j) x a :=
    fun a => specP_congr msa _ _ hget x a
  simp only [hP]
  rfl

/-- Witness of the amended C3 on Scenario B. -/
theorem colCons_formula_witness :
    2 ≤ min msaB.getAlphabet.length msaB.getNseq ∧
    ∃ st out, WEntStat.calculateStatistic Real.log envOk optsPerColumn msaB
        WEntStat.fresh = some (st, out) ∧
      st.w.length = msaB.getNseq ∧
      (∀ j, j < msaB.getNseq → st.w.getD j 0 = WEntStat.calcSeqWeight msaB j) ∧
      st.col_cons.length = msaB.getNcol ∧
      0 < Real.log ((min msaB.getAlphabet.length msaB.getNseq : Nat) : ℝ) ∧
      ∀ x, x < msaB.getNcol → st.col_cons.getD x 0 =
        (1 / Real.log ((min msaB.getAlphabet.length msaB.getNseq : Nat) : ℝ)) *
          (- ∑ a in (Finset.range msaB.getAlphabet.length).filter
                (fun a => specP msaB (fun j => st.w.getD j 0) x a ≠ 0),
              specP msaB (fun j => st.w.getD j 0) x a *
                Real.log (specP msaB (fun j => st.w.getD j 0) x a)) :=
  ⟨by decide, colCons_formula envOk optsPerColumn msaB (by decide) rfl rfl rfl⟩

/-- C4 fails on the code: on Scenario B a fresh `WEntStat` writes the score `1`, and a
second `calculateStatistic` on the same object and alignment writes `1 + 1 / ln 2`
instead, because `col_cons.push_back(0.0)` appends behind the scores of the first call
while `col_cons[x] -= ...` and `col_cons[x] *= lambda` update the old score in place. -/
theorem calculateStatistic_twice_differs :
    ∃ st1 out1 st2 out2,
      WEntStat.calculateStatistic Real.log envOk optsPerColumn msaB WEntStat.fresh =
        some (st1, out1) ∧
      WEntStat.calculateStatistic Real.log envOk optsPerColumn msaB st1 =
        some (st2, out2) ∧
      st1.col_cons.length = 1 ∧ st1.col_cons.getD 0 0 = 1 ∧ out1.file = [1] ∧
      st2.col_cons.length = 2 ∧ st2.col_cons.getD 0 0 = 1 + 1 / Real.log 2 ∧
      out2.file = [1 + 1 / Real.log 2] ∧
      st2.col_cons.getD 0 0 ≠ st1.col_cons.getD 0 0 ∧ out2.file ≠ out1.file := by
  have hlog : 0 < Real.log 2 := Real.log_pos (by norm_num)
  have hdist : ∀ x, x < msaB.getNcol → ∀ i, i < msaB.getNseq → ∀ j, j < msaB.getNseq →
      msaB.getSymbol i x = msaB.getSymbol j x → i = j := by decide
  have hmem : ∀ j, j < msaB.getNseq → ∀ x, x < msaB.getNcol →
      msaB.getSymbol j x ∈ msaB.getAlphabet := by decide
  have hk : ∀ x, x < msaB.getNcol → msaB.getNtype x = distinctCount msaB x := by decide
  have hnd : msaB.getAlphabet.Nodup := by decide
  have hE : specEntropy Real.log msaB (fun j => (WEntStat.calcSeqWeight msaB j : ℝ)) 0 =
      Real.log 2 := by
    rw [entropy_of_distinct_rows msaB (by decide) (by decide) hdist hnd hmem hk 0
      (by decide)]
    norm_num [msaB]
  have hM : ((min msaB.getAlphabet.length msaB.getNseq : Nat) : ℝ) = 2 := by
    norm_num [msaB]
  obtain ⟨st1, out1, hrun1, hw1, hlen1, hcc1, _, hfile1⟩ :=
    calculateStatistic_fresh Real.log envOk optsPerColumn msaB rfl rfl rfl
  have hget1 : ∀ j, j < msaB.getNseq → st1.w.getD j 0 = WEntStat.calcSeqWeight msaB j := by
    intro j hj
    rw [hw1]
    simp [List.getD_eq_getElem?_getD, hj]
  obtain ⟨st2, out2, hrun2, hlen2, hcc2, hfile2⟩ :=
    calculateStatistic_reuse Real.log envOk optsPerColumn msaB st1
      (by rw [hw1]; simp) hget1 rfl rfl rfl
  have hv1 : st1.col_cons.getD 0 0 = 1 := by
    rw [hcc1 0 (by decide), hE, hM]
    field_simp
  have hv2 : st2.col_cons.getD 0 0 = 1 + 1 / Real.log 2 := by
    rw [hcc2 0 (by decide), hv1, hE, hM]
    field_simp
    ring
  have hf1 : out1.file = [1] := by
    rw [hfile1, writeScores_perColumn _ _ _ rfl]
    show [st1.col_cons.getD 0 0] = [1]
    rw [hv1]
  have hf2 : out2.file = [1 + 1 / Real.log 2] := by
    rw [hfile2, writeScores_perColumn _ _ _ rfl]
    show [st2.col_cons.getD 0 0] = [1 + 1 / Real.log 2]
    rw [hv2]
  have hne : (1 : ℝ) + 1 / Real.log 2 ≠ 1 := by
    have : 0 < 1 / Real.log 2 := one_div_pos.mpr hlog
    linarith
  refine ⟨st1, out1, st2, out2, hrun1, hrun2, hlen1, hv1, hf1, ?_, hv2, hf2, ?_, ?_⟩
  · rw [hlen2, hlen1]; rfl
  · rw [hv1, hv2]; exact hne
  · rw [hf1, hf2]
    intro h
    exact hne (List.head_eq_of_cons_eq h)

/-- C5 fails on the code in binary32 arithmetic: ten identical rows (alphabet `ACGT`) meet
every hypothesis of the claim; the ten weights `0.1f` accumulate to
`p[0][0] = 1 + 2^-23`; the exact `ln(1 + 2^-23)` and `ln 4` lie strictly between two
adjacent `float` and two adjacent `double` values, and whichever of the two the call
`log(p[0][0])` returns and whichever of the two the call `log(4)` returns, the stored
score is negative (about `-8.6e-08`). -/
theorem ten_identical_rows_score_negative :
    (2 ≤ min msaTen.getAlphabet.length msaTen.getNseq ∧ msaTen.getAlphabet.Nodup ∧
      (∀ j, j < msaTen.getNseq → ∀ x, x < msaTen.getNcol →
        msaTen.getSymbol j x ∈ msaTen.getAlphabet) ∧
      (∀ x, x < msaTen.getNcol → msaTen.getNtype x = distinctCount msaTen x)) ∧
    (Fp.toRat (Fp.fin 8388609 (-23)) = 1 + 1 / 2 ^ 23 ∧
      ((Fp.toRat (Fp.fin 16777215 (-47)) : ℚ) : ℝ) < Real.log (1 + 1 / 2 ^ 23) ∧
      Real.log (1 + 1 / 2 ^ 23) < ((Fp.toRat (Fp.fin 8388608 (-46)) : ℚ) : ℝ) ∧
      ((Fp.toRat (Fp.fin 6243314768165359 (-52)) : ℚ) : ℝ) < Real.log 4 ∧
      Real.log 4 < ((Fp.toRat (Fp.fin 6243314768165360 (-52)) : ℚ) : ℝ)) ∧
    (∀ y ∈ [(⟨Fp.fin 6243314768165359 (-52)⟩ : F64), ⟨Fp.fin 6243314768165360 (-52)⟩],
      (Binary32.calculateStatistic
          (F32.logAt ⟨Fp.fin 8388609 (-23)⟩ ⟨Fp.fin 16777215 (-47)⟩)
          (F64.logAt ((4 : Nat) : F64) y) envOk optsPerColumn msaTen WEntStat.fresh).map
        (fun r => (r.1.p, r.1.col_cons)) =
          some ([[⟨Fp.fin 8388609 (-23)⟩, 0, 0, 0]], [⟨Fp.fin (-12102203) (-47)⟩]) ∧
      (Binary32.calculateStatistic
          (F32.logAt ⟨Fp.fin 8388609 (-23)⟩ ⟨Fp.fin 8388608 (-46)⟩)
          (F64.logAt ((4 : Nat) : F64) y) envOk optsPerColumn msaTen WEntStat.fresh).map
        (fun r => (r.1.p, r.1.col_cons)) =
          some ([[⟨Fp.fin 8388609 (-23)⟩, 0, 0, 0]], [⟨Fp.fin (-12102204) (-47)⟩])) ∧
    (⟨Fp.fin (-12102203) (-47)⟩ : F32) < 0 ∧ (⟨Fp.fin (-12102204) (-47)⟩ : F32) < 0 := by
  exact ⟨by decide, ⟨log_near_one_bracket.1, log_near_one_bracket.2.1, log_near_one_bracket.2.2,
    log_four_bracket.1, log_four_bracket.2⟩,
    by decide!, by decide!, by decide!⟩

/-- C5 as amended: in exact real arithmetic (the rounding of `float` not counted), for an
alignment with `min(K, N) ≥ 2`, a duplicate-free alphabet containing every symbol, and
`getNtype(x)` the true distinct-symbol count, a fresh `WEntStat` computes for each of the
`L` columns `x` a score `col_cons[x] ≥ 0`, and the score is `0` exactly when a single
alphabet index `a` has accumulated mass `p[x][a] = 1`. -/
theorem score_nonneg_and_zero_iff (env : Env) (opts : Options) (msa : Msa)
    (hmin : 2 ≤ min msa.getAlphabet.length msa.getNseq)
    (hnd : msa.getAlphabet.Nodup)
    (hmem : ∀ j, j < msa.getNseq → ∀ x, x < msa.getNcol →
      msa.getSymbol j x ∈ msa.getAlphabet)
    (hk : ∀ x, x < msa.getNcol → msa.getNtype x = distinctCount msa x)
    (h1 : env.calloc msa.getNcol sizeofPtr = true)
    (h2 : env.calloc msa.getAlphabet.length sizeofFloat = true)
    (h3 : env.is_open = true) :
    ∃ st out, WEntStat.calculateStatistic Real.log env opts msa WEntStat.fresh =
        some (st, out) ∧
      st.col_cons.length = msa.getNcol ∧
      ∀ x, x < msa.getNcol →
        0 ≤ st.col_cons.getD x 0 ∧
        (st.col_cons.getD x 0 = 0 ↔
          ∃! a, a < msa.getAlphabet.length ∧ (st.p.getD x []).getD a 0 = 1) := by
  obtain ⟨st, out, hrun, _, hlen, hcc, hp, _⟩ :=
    calculateStatistic_fresh Real.log env opts msa h1 h2 h3
  refine ⟨st, out, hrun, hlen, fun x hx => ?_⟩
  have hN : 1 ≤ msa.getNseq := by have := Nat.le_min.mp hmin; omega
  have hL : 1 ≤ msa.getNcol := by omega
  obtain ⟨h0, hsum⟩ := specP_distribution msa x hN hL hk hnd (fun j hj => hmem j hj x hx)
  have hlog := log_min_pos _ _ hmin
  have hlam : 0 < 1 / Real.log ((min msa.getAlphabet.length msa.getNseq : Nat) : ℝ) :=
    one_div_pos.mpr hlog
  have hH := entropy_nonneg (Finset.range msa.getAlphabet.length) _ (fun a _ => h0 a) hsum
  have hiff := entropy_eq_zero_iff (Finset.range msa.getAlphabet.length) _
    (fun a _ => h0 a) hsum
  rw [hcc x hx, specEntropy_eq_negMulLog]
  refine ⟨mul_nonneg (le_of_lt hlam) hH, ?_⟩
  rw [mul_eq_zero, hiff]
  constructor
  · rintro (h | ⟨a, ha, hPa⟩)
    · exact absurd h (ne_of_gt hlam)
    · have ha2 := Finset.mem_range.mp ha
      refine ⟨a, ⟨ha2, by rw [hp x a hx ha2]; exact hPa⟩, ?_⟩
      rintro b ⟨hb, hPb⟩
      rw [hp x b hx hb] at hPb
      exact mass_one_unique (Finset.range msa.getAlphabet.length) _ (fun a _ => h0 a) hsum
        b a (Finset.mem_range.mpr hb) ha hPb hPa
  · rintro ⟨a, ⟨ha, hPa⟩, _⟩
    exact Or.inr ⟨a, Finset.mem_range.mpr ha, by rw [← hp x a hx ha]; exact hPa⟩

/-- Witness of C5 on Scenario B. -/
theorem score_nonneg_and_zero_iff_witness :
    ∃ st out, WEntStat.calculateStatistic Real.log envOk optsPerColumn msaB
        WEntStat.fresh = some (st, out) ∧
      st.col_cons.length = msaB.getNcol ∧
      ∀ x, x < msaB.getNcol →
        0 ≤ st.col_cons.getD x 0 ∧
        (st.col_cons.getD x 0 = 0 ↔
          ∃! a, a < msaB.getAlphabet.length ∧ (st.p.getD x []).getD a 0 = 1) :=
  score_nonneg_and_zero_iff envOk optsPerColumn msaB (by decide) (by decide) (by decide)
    (by decide) rfl rfl rfl

/-- C6 fails on the code in binary32 arithmetic: eleven identical rows (alphabet `ACGT`)
meet every hypothesis of the claim; the eleven weights accumulate to
`p[0][0] = 1 + 2^-23`; the exact `ln(1 + 2^-23)` and `ln 4` lie strictly between two
adjacent `float` and two adjacent `double` values, and for either `float` value returned
by `log(p[0][0])` and either `double` value returned by `log(4)` the one stored score is
below `0`, outside `[0, 1]`. -/
theorem eleven_identical_rows_score_negative :
    (2 ≤ min msaEleven.getAlphabet.length msaEleven.getNseq ∧ msaEleven.getAlphabet.Nodup ∧
      (∀ j, j < msaEleven.getNseq → ∀ x, x < msaEleven.getNcol →
        msaEleven.getSymbol j x ∈ msaEleven.getAlphabet) ∧
      (∀ x, x < msaEleven.getNcol → msaEleven.getNtype x = distinctCount msaEleven x)) ∧
    (Fp.toRat (Fp.fin 8388609 (-23)) = 1 + 1 / 2 ^ 23 ∧
      ((Fp.toRat (Fp.fin 16777215 (-47)) : ℚ) : ℝ) < Real.log (1 + 1 / 2 ^ 23) ∧
      Real.log (1 + 1 / 2 ^ 23) < ((Fp.toRat (Fp.fin 8388608 (-46)) : ℚ) : ℝ) ∧
      ((Fp.toRat (Fp.fin 6243314768165359 (-52)) : ℚ) : ℝ) < Real.log 4 ∧
      Real.log 4 < ((Fp.toRat (Fp.fin 6243314768165360 (-52)) : ℚ) : ℝ)) ∧
    ∀ l ∈ [(⟨Fp.fin 16777215 (-47)⟩ : F32), ⟨Fp.fin 8388608 (-46)⟩],
    ∀ y ∈ [(⟨Fp.fin 6243314768165359 (-52)⟩ : F64), ⟨Fp.fin 6243314768165360 (-52)⟩],
      (Binary32.calculateStatistic (F32.logAt ⟨Fp.fin 8388609 (-23)⟩ l)
          (F64.logAt ((4 : Nat) : F64) y) envOk optsPerColumn msaEleven WEntStat.fresh).map
        (fun r => (r.1.col_cons.length, decide (r.1.col_cons.getD 0 0 < 0))) =
          some (1, true) := by
  exact ⟨by decide, ⟨log_near_one_bracket.1, log_near_one_bracket.2.1, log_near_one_bracket.2.2,
    log_four_bracket.1, log_four_bracket.2⟩,
    by decide!⟩

/-- C6 as amended: in exact real arithmetic (the rounding of `float` not counted), under
the same alignment invariants, a fresh `WEntStat` stores `N` weights and `L` scores, every
score `col_cons[x]` lies in `[0, 1]`, and the weighted entropy `- Σ_a p(x,a) ln p(x,a)` of
the column is at most `ln(min(K, N))`. -/
theorem score_in_unit_interval (env : Env) (opts : Options) (msa : Msa)
    (hmin : 2 ≤ min msa.getAlphabet.length msa.getNseq)
    (hnd : msa.getAlphabet.Nodup)
    (hmem : ∀ j, j < msa.getNseq → ∀ x, x < msa.getNcol →
      msa.getSymbol j x ∈ msa.getAlphabet)
    (hk : ∀ x, x < msa.getNcol → msa.getNtype x = distinctCount msa x)
    (h1 : env.calloc msa.getNcol sizeofPtr = true)
    (h2 : env.calloc msa.getAlphabet.length sizeofFloat = true)
    (h3 : env.is_open = true) :
    ∃ st out, WEntStat.calculateStatistic Real.log env opts msa WEntStat.fresh =
        some (st, out) ∧
      st.w.length = msa.getNseq ∧ st.col_cons.length = msa.getNcol ∧
      ∀ x, x < msa.getNcol →
        0 ≤ st.col_cons.getD x 0 ∧ st.col_cons.getD x 0 ≤ 1 ∧
        specEntropy Real.log msa (fun j => st.w.getD j 0) x ≤
          Real.log ((min msa.getAlphabet.length msa.getNseq : Nat) : ℝ) := by
  obtain ⟨st, out, hrun, hw, hlen, hcc, _, _⟩ :=
    calculateStatistic_fresh Real.log env opts msa h1 h2 h3
  refine ⟨st, out, hrun, by rw [hw]; simp, hlen, fun x hx => ?_⟩
  have hN : 1 ≤ msa.getNseq := by have := Nat.le_min.mp hmin; omega
  have hL : 1 ≤ msa.getNcol := by omega
  obtain ⟨h0, hsum⟩ := specP_distribution msa x hN hL hk hnd (fun j hj => hmem j hj x hx)
  have hlog := log_min_pos _ _ hmin
  have hH := entropy_nonneg (Finset.range msa.getAlphabet.length) _ (fun a _ => h0 a) hsum
  have hle := entropy_le_log_card (Finset.range msa.getAlphabet.length) _
    (fun a _ => h0 a) hsum
  have hcard := card_support_le msa (fun j => (WEntStat.calcSeqWeight msa j : ℝ)) x hnd
  have hpos : 0 < ((Finset.range msa.getAlphabet.length).filter
      (fun a => specP msa (fun j => (WEntStat.calcSeqWeight msa j : ℝ)) x a ≠ 0)).card := by
    apply Finset.card_pos.mpr
    by_contra hcon
    rw [Finset.not_nonempty_iff_eq_empty] at hcon
    rw [← Finset.sum_filter_ne_zero, hcon, Finset.sum_empty] at hsum
    exact zero_ne_one hsum
  have hbound : ∑ a in Finset.range msa.getAlphabet.length,
      Real.negMulLog (specP msa (fun j => (WEntStat.calcSeqWeight msa j : ℝ)) x a) ≤
        Real.log ((min msa.getAlphabet.length msa.getNseq : Nat) : ℝ) := by
    refine le_trans hle ?_
    apply Real.log_le_log (by exact_mod_cast hpos)
    exact_mod_cast hcard
  have hget : ∀ j, j < msa.getNseq → st.w.getD j 0 = WEntStat.calcSeqWeight msa j := by
    intro j hj
    rw [hw]
    simp [List.getD_eq_getElem?_getD, hj]
  have hE : specEntropy Real.log msa (fun j => st.w.getD j 0) x =
      specEntropy Real.log msa (fun j => WEntStat.calcSeqWeight msa j) x := by
    rw [specEntropy_eq_sum, specEntropy_eq_sum]
    congr 1
    exact Finset.sum_congr rfl (fun a _ => specTerm_congr Real.log msa _ _ hget x a)
  rw [hcc x hx, hE, specEntropy_eq_negMulLog]
  refine ⟨mul_nonneg (le_of_lt (one_div_pos.mpr hlog)) hH, ?_, hbound⟩
  rw [one_div, inv_mul_le_iff₀ hlog, mul_one]
  exact hbound

/-- Witness of C6 on Scenario B. -/
theorem score_in_unit_interval_witness :
    ∃ st out, WEntStat.calculateStatistic Real.log envOk optsPerColumn msaB
        WEntStat.fresh = some (st, out) ∧
      st.w.length = msaB.getNseq ∧ st.col_cons.length = msaB.getNcol ∧
      ∀ x, x < msaB.getNcol →
        0 ≤ st.col_cons.getD x 0 ∧ st.col_cons.getD x 0 ≤ 1 ∧
        specEntropy Real.log msaB (fun j => st.w.getD j 0) x ≤
          Real.log ((min msaB.getAlphabet.length msaB.getNseq : Nat) : ℝ) :=
  score_in_unit_interval envOk optsPerColumn msaB (by decide) (by decide) (by decide)
    (by decide) rfl rfl rfl

/-- C7: for the same stored values, the single value written in global mode is the
arithmetic mean (sum divided by the number of columns, which is not zero) of the values
written in per-column mode, both for `Stat1D::printStatistic` over a non-empty `col_stat`
and for the output section of `WEntStat::calculateStatistic` over `col_cons[0..ncol-1]`
with `ncol ≥ 1`. -/
theorem global_output_is_mean {F : Type} [Field F] [CharZero F] (env : Env) (v : Bool)
    (col_stat : List F) (ncol : Nat) (col_cons : List F)
    (hopen : env.is_open = true) (hne : col_stat ≠ []) (hncol : 1 ≤ ncol) :
    (∃ perColumn, Stat1D.printStatistic env (Options.mk v false) col_stat = some perColumn ∧
      perColumn.length = col_stat.length ∧ (perColumn.length : F) ≠ 0 ∧
      Stat1D.printStatistic env (Options.mk v true) col_stat =
        some [perColumn.sum / (perColumn.length : F)]) ∧
    (writeScores (Options.mk v false) ncol col_cons).length = ncol ∧
    ((writeScores (Options.mk v false) ncol col_cons).length : F) ≠ 0 ∧
    writeScores (Options.mk v true) ncol col_cons =
      [(writeScores (Options.mk v false) ncol col_cons).sum /
        ((writeScores (Options.mk v false) ncol col_cons).length : F)] := by
  have hlen : (writeScores (Options.mk v false) ncol col_cons).length = ncol := by
    rw [writeScores_perColumn _ _ _ rfl]; simp
  refine ⟨⟨col_stat, printStatistic_perColumn env v col_stat hopen, rfl, ?_,
    printStatistic_global env v col_stat hopen⟩, hlen, ?_, ?_⟩
  · exact_mod_cast Nat.pos_iff_ne_zero.mp (List.length_pos.mpr hne)
  · rw [hlen]
    exact_mod_cast Nat.pos_iff_ne_zero.mp hncol
  · rw [hlen, writeScores_global, writeScores_perColumn _ _ _ rfl]

/-- Witness of C7: the stored values `[1, 3]`, whose mean is `2`. -/
theorem global_output_is_mean_witness :
    Stat1D.printStatistic envOk (Options.mk false true) [(1 : ℚ), 3] = some [2] ∧
    writeScores (Options.mk false true) 2 [(1 : ℚ), 3] = [2] := by
  obtain ⟨⟨pc, hpc, _, _, hg⟩, _, _, hw⟩ :=
    global_output_is_mean envOk false [(1 : ℚ), 3] 2 [(1 : ℚ), 3] rfl (by simp) (by decide)
  rw [printStatistic_perColumn envOk false _ rfl] at hpc
  cases hpc
  rw [hg, hw, writeScores_perColumn _ _ _ rfl]
  constructor <;> norm_num [List.range_succ]

/-- C8: in per-column mode a fresh `WEntStat` run on an alignment with `L` columns writes
exactly the `L` values `col_cons[0], ..., col_cons[L-1]`, in column order, and
`Stat1D::printStatistic` writes exactly the elements of `col_stat` in index order. -/
theorem perColumn_output {F : Type} [Field F] [DecidableEq F] (log : F → F) (env : Env)
    (v : Bool) (msa : Msa) (col_stat : List F)
    (h1 : env.calloc msa.getNcol sizeofPtr = true)
    (h2 : env.calloc msa.getAlphabet.length sizeofFloat = true)
    (h3 : env.is_open = true) :
    (∃ st out, WEntStat.calculateStatistic log env (Options.mk v false) msa WEntStat.fresh =
        some (st, out) ∧
      out.file.length = msa.getNcol ∧ out.file = st.col_cons ∧
      out.file = (List.range msa.getNcol).map (fun x => st.col_cons.getD x 0)) ∧
    Stat1D.printStatistic env (Options.mk v false) col_stat = some col_stat := by
  obtain ⟨st, out, hrun, _, hlen, _, _, hfile⟩ :=
    calculateStatistic_fresh log env (Options.mk v false) msa h1 h2 h3
  have hmap : out.file = (List.range msa.getNcol).map (fun x => st.col_cons.getD x 0) := by
    rw [hfile, writeScores_perColumn _ _ _ rfl]
  have heq : out.file = st.col_cons := by
    rw [hmap, ← hlen, map_getD_range]
  exact ⟨⟨st, out, hrun, by rw [heq, hlen], heq, hmap⟩,
    printStatistic_perColumn env v col_stat h3⟩

/-- Witness of C8 on Scenario A. -/
theorem perColumn_output_witness :
    (∃ st out, WEntStat.calculateStatistic Real.log envOk (Options.mk false false) msaA
        WEntStat.fresh = some (st, out) ∧
      out.file.length = msaA.getNcol ∧ out.file = st.col_cons ∧
      out.file = (List.range msaA.getNcol).map (fun x => st.col_cons.getD x 0)) ∧
    Stat1D.printStatistic envOk (Options.mk false false) [(1 : ℝ), 3] = some [1, 3] :=
  perColumn_output Real.log envOk false msaA [1, 3] rfl rfl rfl

/-- C11 fails on the code: with an empty alphabet (`K = 0`), one row and one column, when
the allocations succeed and the output file opens, `calculateStatistic` does not exit: it
returns and writes one value. -/
theorem empty_alphabet_returns :
    msaEmpty.getAlphabet.length = 0 ∧
    ∃ st out, WEntStat.calculateStatistic Real.log envOk optsPerColumn msaEmpty
        WEntStat.fresh = some (st, out) ∧
      st.col_cons.length = 1 ∧ out.file.length = 1 := by
  obtain ⟨st, out, hrun, _, hlen, _, _, hfile⟩ :=
    calculateStatistic_fresh Real.log envOk optsPerColumn msaEmpty rfl rfl rfl
  refine ⟨rfl, st, out, hrun, hlen, ?_⟩
  rw [hfile, writeScores_perColumn _ _ _ rfl]
  simp [msaEmpty]

/-- C11 as amended: `calculateStatistic` does not check the alphabet; with an empty
alphabet (`K = 0`) the process exits exactly when `calloc` returns a null pointer for the
matrix, or `calloc(0, sizeof(float))` returns a null pointer for a row (there is at least
one column), or the output file cannot be opened; otherwise the call returns. -/
theorem empty_alphabet_exit_iff {F : Type} [Field F] [DecidableEq F] (log : F → F)
    (env : Env) (opts : Options) (msa : Msa) (self : WEntStat F)
    (hK : msa.getAlphabet.length = 0) :
    WEntStat.calculateStatistic log env opts msa self = none ↔
      env.calloc msa.getNcol sizeofPtr = false ∨
        (1 ≤ msa.getNcol ∧ env.calloc 0 sizeofFloat = false) ∨
        env.is_open = false := by
  rw [calculateStatistic_eq_none_iff, hK]

/-- Witness of the amended C11: where `calloc(0, size)` returns a null pointer the run on
the alignment with the empty alphabet exits. -/
theorem empty_alphabet_exit_iff_witness :
    msaEmpty.getAlphabet.length = 0 ∧
    WEntStat.calculateStatistic Real.log envNullOnZero optsPerColumn msaEmpty
      WEntStat.fresh = none :=
  ⟨rfl, (empty_alphabet_exit_iff Real.log envNullOnZero optsPerColumn msaEmpty
    WEntStat.fresh rfl).mpr (Or.inr (Or.inl ⟨by decide, rfl⟩))⟩

/-- C12: the trident statistic fills `col_cons` with
`(1 - t(x))^a * (1 - r(x))^b * (1 - g(x))^c` for the columns `x < ncol`, with real
exponents `a`, `b`, `c`; a column with `t(x) = r(x) = g(x) = 0` scores exactly `1`. -/
theorem trident_score_formula (a b c : ℝ) (self : TridStat ℝ) (x : Nat)
    (hx : x < self.ncol) :
    (TridStat.conservation Real.rpow a b c self).col_cons.length = self.ncol ∧
    (TridStat.conservation Real.rpow a b c self).col_cons.getD x 0 =
      (1 - self.t.getD x 0) ^ a * (1 - self.r.getD x 0) ^ b * (1 - self.g.getD x 0) ^ c ∧
    (self.t.getD x 0 = 0 → self.r.getD x 0 = 0 → self.g.getD x 0 = 0 →
      (TridStat.conservation Real.rpow a b c self).col_cons.getD x 0 = 1) := by
  have hval : (TridStat.conservation Real.rpow a b c self).col_cons.getD x 0 =
      (1 - self.t.getD x 0) ^ a * (1 - self.r.getD x 0) ^ b *
        (1 - self.g.getD x 0) ^ c := by
    rw [conservation_col_cons]
    simp [List.getD_eq_getElem?_getD, hx]
  refine ⟨by rw [conservation_col_cons]; simp, hval, fun ht hr hg => ?_⟩
  rw [hval, ht, hr, hg]
  simp

/-- Witness of C12: the fully conserved first column of a two-column example, with the
exponents `1`, `1/2` and `2`. -/
theorem trident_score_formula_witness :
    0 < (tridExample ℝ).ncol ∧
    (TridStat.conservation Real.rpow 1 (1 / 2) 2 (tridExample ℝ)).col_cons.getD 0 0 = 1 :=
  ⟨by decide, (trident_score_formula 1 (1 / 2) 2 (tridExample ℝ) 0 (by decide)).2.2
    rfl rfl rfl⟩

/-- C13: verbosity is purely observational: whether the process exits, the object after
the call (its weights `w`, its scores `col_cons`, its matrix `p`) and the values written
to the output file are the same for `verbose = true` and `verbose = false`; without
verbosity nothing is sent to `cout`. -/
theorem verbose_is_observational {F : Type} [Field F] [DecidableEq F] (log : F → F)
    (env : Env) (g : Bool) (msa : Msa) (self : WEntStat F) :
    (WEntStat.calculateStatistic log env (Options.mk true g) msa self).map
        (fun r => (r.1, r.2.file)) =
      (WEntStat.calculateStatistic log env (Options.mk false g) msa self).map
        (fun r => (r.1, r.2.file)) ∧
    (WEntStat.calculateStatistic log env (Options.mk false g) msa self).map
        (fun r => r.2.cout) =
      (WEntStat.calculateStatistic log env (Options.mk false g) msa self).map
        (fun _ => []) := by
  unfold WEntStat.calculateStatistic
  cases hp : (allocProba env msa.getNcol msa.getAlphabet.length : Option (List (List F))) with
  | none => simp [hp]
  | some p =>
    cases h3 : env.is_open with
    | false => simp [hp, h3]
    | true =>
      simp only [hp, h3, if_true, Option.map_some', writeScores_verbose true g, true_and]
      rfl

/-- C14 fails on the code in binary32 arithmetic: for ten identical rows, which meet every
hypothesis of the claim, each weight is `0.1f = 13421773 * 2^-27`; the ten stored values
add up to `1 + 2^-26` as numbers, and to `1 + 2^-23` when added in `float`, not to `1`. -/
theorem ten_identical_rows_weights_sum :
    (1 ≤ msaTen.getNseq ∧ 1 ≤ msaTen.getNcol ∧
      (∀ x, x < msaTen.getNcol → msaTen.getNtype x = distinctCount msaTen x)) ∧
    (List.range msaTen.getNseq).map (fun i => (WEntStat.calcSeqWeight msaTen i : F32)) =
      List.replicate 10 ⟨Fp.fin 13421773 (-27)⟩ ∧
    ((List.replicate 10 (Fp.fin 13421773 (-27))).map Fp.toRat).sum = 1 + 1 / 2 ^ 26 ∧
    ((List.replicate 10 (Fp.fin 13421773 (-27))).map Fp.toRat).sum ≠ 1 ∧
    (List.replicate 10 (⟨Fp.fin 13421773 (-27)⟩ : F32)).foldl (fun s v => s + v) 0 =
      ⟨Fp.fin 8388609 (-23)⟩ ∧
    (⟨Fp.fin 8388609 (-23)⟩ : F32) ≠ 1 := by
  refine ⟨by decide, by decide!, ?_, ?_, by decide!, by decide!⟩
  · norm_num [Fp.toRat, List.replicate]
  · norm_num [Fp.toRat, List.replicate]

/-- C14 as amended: in exact arithmetic (the rounding of `float` not counted), for an
alignment with `N ≥ 1` rows and `L ≥ 1` columns in which `getNtype(x)` is the number of
distinct symbols of column `x`, the weights computed by `calcSeqWeight` sum to exactly `1`
over the rows, and so do the `N` weights a fresh `WEntStat` stores in `w`. -/
theorem seqWeights_sum_one {F : Type} [LinearOrderedField F] (log : F → F) (env : Env)
    (opts : Options) (msa : Msa)
    (hN : 1 ≤ msa.getNseq) (hL : 1 ≤ msa.getNcol)
    (hk : ∀ x, x < msa.getNcol → msa.getNtype x = distinctCount msa x)
    (h1 : env.calloc msa.getNcol sizeofPtr = true)
    (h2 : env.calloc msa.getAlphabet.length sizeofFloat = true)
    (h3 : env.is_open = true) :
    ∑ i in Finset.range msa.getNseq, (WEntStat.calcSeqWeight msa i : F) = 1 ∧
    ∃ st out, WEntStat.calculateStatistic log env opts msa WEntStat.fresh = some (st, out) ∧
      st.w.length = msa.getNseq ∧ st.w.sum = 1 := by
  have hsum : ∑ i in Finset.range msa.getNseq, (WEntStat.calcSeqWeight msa i : F) = 1 := by
    simp only [calcSeqWeight_eq_specWeight]
    exact sum_specWeight msa hL hN hk
  obtain ⟨st, out, hrun, hw, _⟩ := calculateStatistic_fresh log env opts msa h1 h2 h3
  refine ⟨hsum, st, out, hrun, by rw [hw]; simp, ?_⟩
  rw [hw, list_sum_map_range]
  exact hsum

/-- Witness of C14 on Scenario B. -/
theorem seqWeights_sum_one_witness :
    ∑ i in Finset.range msaB.getNseq, (WEntStat.calcSeqWeight msaB i : ℚ) = 1 ∧
    ∃ st out, WEntStat.calculateStatistic (fun q : ℚ => q) envOk optsPerColumn msaB
        WEntStat.fresh = some (st, out) ∧
      st.w.length = msaB.getNseq ∧ st.w.sum = 1 :=
  seqWeights_sum_one (fun q : ℚ => q) envOk optsPerColumn msaB (by decide) (by decide)
    (by decide) rfl rfl rfl

/-- C16: the output section inside `WEntStat::calculateStatistic` is equivalent to
`Stat1D::printStatistic`: for every list `v` of `ncol ≥ 1` values and every value of the
global flag, both exit when the file cannot be opened and otherwise write the same
sequence of values (the divisor `ncol` of the global mode is not zero). -/
theorem output_section_eq_printStatistic {F : Type} [Field F] [CharZero F] (env : Env)
    (opts : Options) (ncol : Nat) (v : List F) (hlen : v.length = ncol)
    (hncol : 1 ≤ ncol) :
    Stat1D.printStatistic env opts v =
      (if env.is_open then some (writeScores opts ncol v) else none) ∧
    (ncol : F) ≠ 0 := by
  refine ⟨?_, by exact_mod_cast Nat.pos_iff_ne_zero.mp hncol⟩
  subst hlen
  unfold Stat1D.printStatistic writeScores
  cases env.is_open with
  | false => rfl
  | true =>
    cases opts.global with
    | false => rfl
    | true => rfl

/-- Witness of C16: the values `[1, 3]` in global mode, both printers write `2`. -/
theorem output_section_eq_printStatistic_witness :
    [(1 : ℚ), 3].length = 2 ∧
    Stat1D.printStatistic envOk (Options.mk false true) [(1 : ℚ), 3] =
      (if envOk.is_open then some (writeScores (Options.mk false true) 2 [(1 : ℚ), 3])
        else none) :=
  ⟨rfl, (output_section_eq_printStatistic envOk (Options.mk false true) 2 [(1 : ℚ), 3]
    rfl (by decide)).1⟩

end MstatX
